import Mathlib

/-!
Verification of the ripped-CD processing pipeline (`ProcessRippedCDs`).

The repository contains two near-duplicate implementations:
the primary one at `src/ProcessRippedCDs.py` and a legacy one at
`src/ProcessRippedCDs/ProcessRippedCDs.py`.  The definitions in the
namespace `ProcessRippedCDs` below are a shallow embedding of the primary
implementation; the namespace `Legacy` embeds the points where the legacy
implementation differs (the wav-filename regular expression and the
orchestrator's phase order).

Strings are modelled as `List Char`, filesystem paths as lists of path
components, and the filesystem itself as an explicit record of the existing
directories and files.  External subprocess invocations (the flac encoder)
are modelled by an oracle function returning the exit code.
-/

namespace ProcessRippedCDs

/-- A filename or path component, modelled as its character list. -/
abbrev Name := List Char

/-- An absolute filesystem path, modelled as its list of components. -/
abbrev Path := List Name

/-! ## Basic character-list utilities -/

/-- Python `str.rstrip(c)` for a single strip character: remove all trailing
occurrences of `ch`. -/
def rstripChar (ch : Char) (l : List Char) : List Char :=
  ((l.reverse).dropWhile (fun c => c = ch)).reverse

/-- Python `str.split("\t")`: split on every tab, keeping empty pieces
(`"".split("\t") == [""]`). -/
def splitTabs : List Char → List (List Char)
  | [] => [[]]
  | c :: rest =>
    match splitTabs rest with
    | [] => [[]]
    | f :: fs => if c = '\t' then [] :: f :: fs else (c :: f) :: fs

/-- Python `"\t".join(fields)`. -/
def joinTab : List (List Char) → List Char
  | [] => []
  | [f] => f
  | f :: rest => f ++ '\t' :: joinTab rest

/-- Value of a list of decimal digit characters, most significant first. -/
def digitsVal (l : List Char) : Nat :=
  l.foldl (fun a c => 10 * a + (c.toNat - 48)) 0

/-! ## Python `int()` (ASCII fragment)

`int(s)` strips surrounding whitespace, accepts an optional sign, and then a
nonempty digit sequence in which single underscores may appear between
digits.  Anything else raises `ValueError`. -/

/-- Whitespace characters stripped by Python `int()` (ASCII fragment). -/
def isPyWs (c : Char) : Bool :=
  c = ' ' || c = '\t' || c = '\n' || c = '\r' || c = Char.ofNat 11 || c = Char.ofNat 12

/-- Strip leading and trailing whitespace. -/
def pyStrip (l : List Char) : List Char :=
  ((l.dropWhile isPyWs).reverse.dropWhile isPyWs).reverse

/-- Tail of a digit group: digits, with single underscores allowed between
digits. -/
def digitsUSTail : List Char → Bool
  | [] => true
  | '_' :: c :: r => c.isDigit && digitsUSTail r
  | '_' :: [] => false
  | c :: r => c.isDigit && digitsUSTail r

/-- A valid unsigned digit group for Python `int()`. -/
def digitsUS : List Char → Bool
  | [] => false
  | c :: rest => c.isDigit && digitsUSTail rest

/-- Parse an unsigned digit group (underscores removed before valuation). -/
def pyNatCore (l : List Char) : Option Nat :=
  if digitsUS l then some (digitsVal (l.filter (fun c => c ≠ '_'))) else none

/-- Python `int(s)` on a character list; `none` models `ValueError`. -/
def pyInt (l : List Char) : Option Int :=
  match pyStrip l with
  | '+' :: r => (pyNatCore r).map Int.ofNat
  | '-' :: r => (pyNatCore r).map (fun n => -(Int.ofNat n))
  | r => (pyNatCore r).map Int.ofNat

/-! ## `_TrackMetadata` and `from_tab_delimited_line` -/

/-- Python `_TrackMetadata`: one track's metadata, fields in the source's
declaration order. -/
structure TrackMetadata where
  title : List Char
  artist : List Char
  track_num : Int
  track_length : List Char
  composer : List Char
  album_title : List Char
  album_artist : List Char
  album_composer : List Char
  album_interpret : List Char
  year : Int
  genre : List Char
  comment : List Char
  num_tracks : Int
  track_offset : Int
  cd_db_type : List Char
  cd_db_id : List Char
deriving DecidableEq

/-- Failure of `from_tab_delimited_line`: the arity assertion
(`assert len(items) == 16`) or a `ValueError` from `int()`. -/
inductive ParseError where
  | wrongFieldCount (n : Nat)
  | invalidInt (s : List Char)
deriving DecidableEq

/-- The field-list stage of `from_tab_delimited_line`: require exactly 16
fields, parse fields 2, 9, 12, 13 (0-based, in that evaluation order) as
integers, take every other field verbatim. -/
def fromItems (items : List (List Char)) : Except ParseError TrackMetadata :=
  if items.length = 16 then
    match pyInt (items.getD 2 []) with
    | none => .error (.invalidInt (items.getD 2 []))
    | some tn =>
      match pyInt (items.getD 9 []) with
      | none => .error (.invalidInt (items.getD 9 []))
      | some yr =>
        match pyInt (items.getD 12 []) with
        | none => .error (.invalidInt (items.getD 12 []))
        | some ntr =>
          match pyInt (items.getD 13 []) with
          | none => .error (.invalidInt (items.getD 13 []))
          | some toff =>
            .ok
              { title := items.getD 0 []
                artist := items.getD 1 []
                track_num := tn
                track_length := items.getD 3 []
                composer := items.getD 4 []
                album_title := items.getD 5 []
                album_artist := items.getD 6 []
                album_composer := items.getD 7 []
                album_interpret := items.getD 8 []
                year := yr
                genre := items.getD 10 []
                comment := items.getD 11 []
                num_tracks := ntr
                track_offset := toff
                cd_db_type := items.getD 14 []
                cd_db_id := items.getD 15 [] }
  else
    .error (.wrongFieldCount items.length)

/-- Python `_TrackMetadata.from_tab_delimited_line`: strip the trailing newline and
trailing tab characters, split on tab, then build the record from the
resulting fields. -/
def fromTabDelimitedLine (line : List Char) : Except ParseError TrackMetadata :=
  fromItems (splitTabs (rstripChar '\t' (rstripChar '\n' line)))

/-! ## The wav-filename track-number expressions

The primary implementation matches `re.match(r"(?P<track_num>\d+).+\.wav", name)`
and the legacy one `re.match(r"(?P<track_num>\d+).*.wav", name)` (unescaped
dot).  Both are modelled with Python's backtracking semantics: the greedy
`\d+` tries the longest leading digit run first and shrinks until the rest
of the pattern matches somewhere (prefix match, no end anchor); the captured
digit group is converted with `int`. -/

/-- Does `pat` occur verbatim at the start of `l`? -/
def charsStartWith : List Char → List Char → Bool
  | [], _ => true
  | _ :: _, [] => false
  | p :: ps, c :: cs => p == c && charsStartWith ps cs

/-- Match `.+` followed by the literal `pat` against some prefix of `l`
(`.` excludes newline; at least one character is consumed before `pat`). -/
def dotPlusThen (pat : List Char) : List Char → Bool
  | [] => false
  | c :: t => c ≠ '\n' && (charsStartWith pat t || dotPlusThen pat t)

/-- Greedy `\d+` backtracking: try `k` leading digits, `k` descending; on
the first `k` whose remainder satisfies `ok`, capture those digits. -/
def wavTryK (ok : List Char → Bool) (l : List Char) : Nat → Option Int
  | 0 => none
  | Nat.succ k =>
    if ok (l.drop (k + 1)) then some (Int.ofNat (digitsVal (l.take (k + 1))))
    else wavTryK ok l k

/-- Track number extracted from a wav filename by the primary
implementation's pattern `\d+.+\.wav` (`.+\.wav` ≡ at least one arbitrary
character, then the literal `.wav`). -/
def wavTrackNum (l : List Char) : Option Int :=
  wavTryK (dotPlusThen ".wav".toList) l (l.takeWhile Char.isDigit).length

end ProcessRippedCDs

namespace Legacy

/-- Track number extracted by the legacy implementation's pattern
`\d+.*.wav` (`.*.wav` ≡ at least one arbitrary character, then the literal
`wav`, because the dot before `wav` is unescaped). -/
def wavTrackNum (l : List Char) : Option Int :=
  ProcessRippedCDs.wavTryK (ProcessRippedCDs.dotPlusThen "wav".toList) l
    (l.takeWhile Char.isDigit).length

end Legacy

namespace ProcessRippedCDs

/-! ## `pathlib` name and suffix operations

`Path.suffix` is the part of the final component from its last dot,
provided that dot is neither the first nor the last character; otherwise
the suffix is empty.  `Path.with_suffix` replaces that suffix (or appends
when there is none). -/

/-- Split a name at its last dot: `some (before, after)`, or `none` when it
has no dot. -/
def splitAtLastDot : Name → Option (Name × Name)
  | [] => none
  | c :: rest =>
    match splitAtLastDot rest with
    | some (b, a) => some (c :: b, a)
    | none => if c = '.' then some ([], rest) else none

/-- Python `PurePath.suffix` of a single name. -/
def nameSuffix (n : Name) : Name :=
  match splitAtLastDot n with
  | some (b, a) => if b.isEmpty || a.isEmpty then [] else '.' :: a
  | none => []

/-- Python `PurePath.with_suffix s` applied to a single name. -/
def withSuffix (s : Name) (n : Name) : Name :=
  match splitAtLastDot n with
  | some (b, a) => if b.isEmpty || a.isEmpty then n ++ s else b ++ s
  | none => n ++ s

/-- Python `Path.with_suffix s`: replace the suffix of the final component. -/
def withSuffixPath (s : Name) : Path → Path
  | [] => []
  | [n] => [withSuffix s n]
  | n :: rest => n :: withSuffixPath s rest

/-! ## `_Album.from_directory` (the AlbumDirectory Classifier) -/

/-- One directory entry as seen by `directory.iterdir()`: its name and
whether it is a regular file. -/
structure Entry where
  name : Name
  isFile : Bool
deriving DecidableEq

/-- The distinct rejection warnings of `from_directory` (each corresponds
to one `WriteWarning` + `return None` site in the source). -/
inductive RejectReason where
  | unexpectedSubdirectory (name : Name)
  | multipleMetadataFiles
  | multipleLogFiles
  | multipleAlbumPictures
  | unexpectedFilename (name : Name)
  | noWavFiles
  | noMetadataFile
  | wavBadFormat (name : Name)
  | duplicateTrack (num : Int) (prev cur : Name)
  | invalidMetadata (lineNum : Nat) (err : ParseError)
deriving DecidableEq

/-- Accumulator of the entry-classification loop (the four local variables
of the first loop in `from_directory`). -/
structure ScanState where
  wav_filenames : List Name
  metadata_filename : Option Name
  log_filename : Option Name
  album_pic : Option Name
deriving DecidableEq

/-- Python `item.suffix == ".wav"`. -/
def isWavEntry (e : Entry) : Bool := nameSuffix e.name = ".wav".toList

/-- Python `item.suffix == ".txt"`. -/
def isTxtEntry (e : Entry) : Bool := nameSuffix e.name = ".txt".toList

/-- Python `item.suffix == ".log"`. -/
def isLogEntry (e : Entry) : Bool := nameSuffix e.name = ".log".toList

/-- Python `item.suffix in (".jpg", ".jpeg", ".png")`. -/
def isPicEntry (e : Entry) : Bool :=
  nameSuffix e.name = ".jpg".toList ∨ nameSuffix e.name = ".jpeg".toList ∨
    nameSuffix e.name = ".png".toList

/-- One iteration of the entry-classification loop. -/
def classifyEntry (s : ScanState) (e : Entry) : Except RejectReason ScanState :=
  if ¬ e.isFile then .error (.unexpectedSubdirectory e.name)
  else if isWavEntry e then
    .ok { s with wav_filenames := s.wav_filenames ++ [e.name] }
  else if isTxtEntry e then
    match s.metadata_filename with
    | some _ => .error .multipleMetadataFiles
    | none => .ok { s with metadata_filename := some e.name }
  else if isLogEntry e then
    match s.log_filename with
    | some _ => .error .multipleLogFiles
    | none => .ok { s with log_filename := some e.name }
  else if isPicEntry e then
    match s.album_pic with
    | some _ => .error .multipleAlbumPictures
    | none => .ok { s with album_pic := some e.name }
  else .error (.unexpectedFilename e.name)

/-- The entry-classification loop over the directory listing. -/
def scanEntries : List Entry → ScanState → Except RejectReason ScanState
  | [], s => .ok s
  | e :: rest, s =>
    match classifyEntry s e with
    | .error r => .error r
    | .ok s' => scanEntries rest s'

/-- 0 or 1 according to whether an optional role-file slot is filled. -/
def optCount : Option Name → Nat
  | none => 0
  | some _ => 1

/-- Characterization of when the entry-classification loop succeeds from
state `s`: every entry is a regular file with a recognized suffix, and each
single-slot role (metadata, log, picture) is claimed at most once in total. -/
def scanOK (l : List Entry) (s : ScanState) : Prop :=
  (∀ e ∈ l, e.isFile = true ∧ (isWavEntry e || isTxtEntry e || isLogEntry e || isPicEntry e) = true) ∧
  l.countP isTxtEntry + optCount s.metadata_filename ≤ 1 ∧
  l.countP isLogEntry + optCount s.log_filename ≤ 1 ∧
  l.countP isPicEntry + optCount s.album_pic ≤ 1

/-- Python `wav_lookup.get(track_num)` on the insertion-ordered association list
modelling the Python dict. -/
def findTrack (k : Int) : List (Int × Path) → Option Path
  | [] => none
  | (j, p) :: rest => if j = k then some p else findTrack k rest

/-- The wav-organizing loop: extract each track number, rejecting malformed
names and duplicate track numbers. -/
def buildWavLookup (dir : Path) : List Name → List (Int × Path) → Except RejectReason (List (Int × Path))
  | [], acc => .ok acc
  | n :: rest, acc =>
    match wavTrackNum n with
    | none => .error (.wavBadFormat n)
    | some tn =>
      match findTrack tn acc with
      | some prev => .error (.duplicateTrack tn (prev.getLastD []) n)
      | none => buildWavLookup dir rest (acc ++ [(tn, dir ++ [n])])

/-- The metadata-extraction loop: parse every line, reporting the 1-based
line number on failure. -/
def parseTracks : List (List Char) → Nat → Except RejectReason (List TrackMetadata)
  | [], _ => .ok []
  | l :: rest, i =>
    match fromTabDelimitedLine l with
    | .error e => .error (.invalidMetadata (i + 1) e)
    | .ok t =>
      match parseTracks rest (i + 1) with
      | .error r => .error r
      | .ok ts => .ok (t :: ts)

/-- Python `_Album`: a validated ripped-CD directory.  `wav_lookup` is the
insertion-ordered track-number-to-path dict. -/
structure Album where
  source_dir : Path
  tracks : List TrackMetadata
  album_pic : Option Path
  metadata_filename : Option Path
  log_filename : Option Path
  wav_lookup : List (Int × Path)
deriving DecidableEq

/-- The part of `_Album.from_directory` after the entry-classification
loop: require wav files and a metadata file, build the wav lookup, parse the
metadata lines, and assemble the Album. -/
def fromDirectoryPost (readLines : Name → List (List Char)) (directory : Path)
    (s : ScanState) : Except RejectReason Album :=
  if s.wav_filenames.isEmpty then .error .noWavFiles
  else
    match s.metadata_filename with
    | none => .error .noMetadataFile
    | some metaName =>
      match buildWavLookup directory s.wav_filenames [] with
      | .error r => .error r
      | .ok lookup =>
        match parseTracks (readLines metaName) 0 with
        | .error r => .error r
        | .ok tracks =>
          .ok { source_dir := directory
                tracks := tracks
                album_pic := s.album_pic.map (fun n => directory ++ [n])
                metadata_filename := some (directory ++ [metaName])
                log_filename := s.log_filename.map (fun n => directory ++ [n])
                wav_lookup := lookup }

/-- Python `_Album.from_directory`: classify the directory listing, then run the
validation and assembly stage.  `readLines` models `readlines()` on the
metadata file (`[]` for an empty file). -/
def fromDirectory (readLines : Name → List (List Char)) (directory : Path)
    (entries : List Entry) : Except RejectReason Album :=
  match scanEntries entries ⟨[], none, none, none⟩ with
  | .error r => .error r
  | .ok s => fromDirectoryPost readLines directory s

end ProcessRippedCDs

namespace ProcessRippedCDs

/-! ## Filesystem model and the Encode Stage -/

/-- Tri-state `_InvokeResult` of one stage applied to one album. -/
inductive InvokeResult where
  | Skipped
  | Success
  | Failure
deriving DecidableEq

/-- The filesystem: the set of existing directories and existing files
(membership is what matters; the lists may carry duplicates). -/
structure FS where
  dirs : List Path
  files : List Path
deriving DecidableEq

/-- Is `q` equal to or below `root`? -/
def isUnder : Path → Path → Bool
  | [], _ => true
  | _ :: _, [] => false
  | a :: as, b :: bs => a == b && isUnder as bs

/-- Python `shutil.rmtree(p)`: remove `p` and everything below it. -/
def rmtree (fs : FS) (p : Path) : FS :=
  { dirs := fs.dirs.filter (fun d => !(isUnder p d))
    files := fs.files.filter (fun f => !(isUnder p f)) }

/-- The nonempty ancestors of `p`, `p` itself included. -/
def ancestorsOf (p : Path) : List Path :=
  (List.range p.length).map (fun i => p.take (i + 1))

/-- Python `p.mkdir(parents=True)`. -/
def mkdirParents (fs : FS) (p : Path) : FS :=
  { fs with dirs := ancestorsOf p ++ fs.dirs }

/-- Python `p.unlink(missing_ok=True)`. -/
def unlinkFile (fs : FS) (p : Path) : FS :=
  { fs with files := fs.files.filter (fun f => f ≠ p) }

/-- Creation of the file `p` (by the external encoder or `shutil.copy`). -/
def createFile (fs : FS) (p : Path) : FS :=
  { fs with files := p :: fs.files.filter (fun f => f ≠ p) }

/-- Python `src.rename(dst)` for a file. -/
def renameFile (fs : FS) (src dst : Path) : FS :=
  { fs with files := dst :: fs.files.filter (fun f => f ≠ src ∧ f ≠ dst) }

/-- Rebase `p` from `src` onto `dst` when it lies under `src`. -/
def rebasePath (src dst p : Path) : Path :=
  if isUnder src p then dst ++ p.drop src.length else p

/-- Python `src.rename(dst)` for a directory tree (the commit rename). -/
def renameDirTree (fs : FS) (src dst : Path) : FS :=
  { dirs := fs.dirs.map (rebasePath src dst)
    files := fs.files.map (rebasePath src dst) }

/-- External encoder oracle: the exit code of the flac invocation for a
given track, source wav path and output path. -/
def Encoder : Type := TrackMetadata → Path → Path → Int

/-- Decimal digit characters of an integer. -/
def intName (n : Int) : Name :=
  if n < 0 then '-' :: Nat.toDigits 10 n.natAbs else Nat.toDigits 10 n.natAbs

/-- Python `f"temp_{track.track_num}"`. -/
def tempTrackName (n : Int) : Name := "temp_".toList ++ intName n

/-- Python `path.name` of the final component. -/
def lastName (p : Path) : Name := p.getLastD []

/-- The data-track placeholder titles `["Data", "Data Track"]`. -/
def dataTrackTitles : List Name := ["Data".toList, "Data Track".toList]

/-- The distinct fatal conditions inside `Encode` (each corresponds to one
`WriteError` + `return _InvokeResult.Failure` site). -/
inductive EncodeError where
  | trackNotFound (n : Int)
  | encoderExit (code : Int)
  | unprocessed (names : List Name)
deriving DecidableEq

/-- Outcome of the per-track loop. -/
inductive LoopOut where
  | failed (err : EncodeError) (fs : FS) (lookup : List (Int × Path))
  | done (fs : FS) (lookup : List (Int × Path))
deriving DecidableEq

/-- Filesystem component of a loop outcome. -/
def LoopOut.fsOf : LoopOut → FS
  | .failed _ fs _ => fs
  | .done fs _ => fs

/-- Python `album.wav_lookup.pop(track_num, None)`: value and remaining dict. -/
def popTrack (k : Int) : List (Int × Path) → Option (Path × List (Int × Path))
  | [] => none
  | (j, p) :: rest =>
    if j = k then some (p, rest)
    else (popTrack k rest).map (fun vr => (vr.1, (j, p) :: vr.2))

/-- The per-track loop of `Encode`: pop the wav for each track record in
order, skip recognized data tracks silently, fail on a missing wav or a
nonzero encoder exit, and rename each encoded temp file to its final
`.flac` name inside the temp directory. -/
def encodeLoop (enc : Encoder) (tempDir : Path) :
    List TrackMetadata → List (Int × Path) → FS → LoopOut
  | [], lookup, fs => .done fs lookup
  | t :: rest, lookup, fs =>
    match popTrack t.track_num lookup with
    | none =>
      if t.title ∈ dataTrackTitles then encodeLoop enc tempDir rest lookup fs
      else .failed (.trackNotFound t.track_num) fs lookup
    | some (wav, lookup2) =>
      if enc t wav (tempDir ++ [tempTrackName t.track_num]) ≠ 0 then
        .failed (.encoderExit (enc t wav (tempDir ++ [tempTrackName t.track_num])))
          (unlinkFile fs (tempDir ++ [tempTrackName t.track_num])) lookup2
      else
        encodeLoop enc tempDir rest lookup2
          (renameFile
            (createFile (unlinkFile fs (tempDir ++ [tempTrackName t.track_num]))
              (tempDir ++ [tempTrackName t.track_num]))
            (tempDir ++ [tempTrackName t.track_num])
            (tempDir ++ [withSuffix ".flac".toList (lastName wav)]))

/-- The observable outcome of one `Encode` call: the returned
`_InvokeResult`, the fatal diagnostic if any, the filesystem afterwards,
and the album wav-lookup afterwards (`Encode` mutates it by popping). -/
structure EncodeOutcome where
  result : InvokeResult
  error : Option EncodeError
  fs : FS
  wav_lookup : List (Int × Path)
deriving DecidableEq

/-- Python `output_dir.with_suffix(".tmp")`. -/
def tempDirOf (outputDir : Path) : Path := withSuffixPath ".tmp".toList outputDir

/-- The temp-directory preparation: clear a stale temp directory, then
create it (with parents). -/
def prepFS (fs : FS) (outputDir : Path) : FS :=
  mkdirParents (if tempDirOf outputDir ∈ fs.dirs then rmtree fs (tempDirOf outputDir) else fs)
    (tempDirOf outputDir)

/-- The album-art copy: temp-name write then rename, when a picture exists. -/
def copyPicFS (fs : FS) (tempDir : Path) : Option Path → FS
  | none => fs
  | some pic =>
    renameFile
      (createFile (unlinkFile fs (tempDir ++ ["album_art.temp".toList]))
        (tempDir ++ ["album_art.temp".toList]))
      (tempDir ++ ["album_art.temp".toList]) (tempDir ++ [lastName pic])

/-- The `Encode` operation (the functor returned by `_GetEncoder`): skip if
`outputDir` already exists, otherwise prepare the temp directory, run the
track loop, fail if any wav file was left unprocessed (reporting every
leftover name), copy the album art, and commit by renaming the temp
directory to `outputDir`. -/
def Encode (enc : Encoder) (fs : FS) (album : Album) (outputDir : Path) : EncodeOutcome :=
  if outputDir ∈ fs.dirs then ⟨.Skipped, none, fs, album.wav_lookup⟩
  else
    match encodeLoop enc (tempDirOf outputDir) album.tracks album.wav_lookup
        (prepFS fs outputDir) with
    | .failed err fs2 lk => ⟨.Failure, some err, fs2, lk⟩
    | .done fs2 lk =>
      if lk.isEmpty then
        ⟨.Success, none,
          renameDirTree (copyPicFS fs2 (tempDirOf outputDir) album.album_pic)
            (tempDirOf outputDir) outputDir, lk⟩
      else ⟨.Failure, some (.unprocessed (lk.map (fun e => lastName e.2))), fs2, lk⟩

/-! ## The Batch Orchestrator (primary implementation)

`EntryPoint` runs `_EncodeContent` over all albums (collecting the set of
albums whose encode returned Failure, keyed by object identity — modelled
here by the album's position in the list, which is in bijection with the
distinct album objects of a run), and afterwards `_ArchiveContent`, which
skips exactly the albums in that set.  The two stage functors are abstract
stateful functions; `Event` records each observable stage action in order. -/

/-- One observable orchestrator action. -/
inductive Event where
  | encoded (idx : Nat) (r : InvokeResult)
  | archiveSkipped (idx : Nat)
  | archived (idx : Nat) (r : InvokeResult)
deriving DecidableEq

/-- Python `_EncodeContent`: encode every album in order; return the events, the
indices whose result was Failure (`encode_errors`), and the final state. -/
def encodeContentGo {S A : Type} (encoder : S → A → InvokeResult × S) :
    Nat → List A → S → List Event × List Nat × S
  | _, [], s => ([], [], s)
  | idx, a :: rest, s =>
    ((Event.encoded idx (encoder s a).1 :: (encodeContentGo encoder (idx + 1) rest (encoder s a).2).1),
      ((if (encoder s a).1 = .Failure then [idx] else []) ++
        (encodeContentGo encoder (idx + 1) rest (encoder s a).2).2.1),
      (encodeContentGo encoder (idx + 1) rest (encoder s a).2).2.2)

/-- Python `_ArchiveContent`: archive every album in order, skipping (with a
warning event) every index in `encode_errors`. -/
def archiveContentGo {S A : Type} (archiver : S → A → InvokeResult × S) (errs : List Nat) :
    Nat → List A → S → List Event × S
  | _, [], s => ([], s)
  | idx, a :: rest, s =>
    if idx ∈ errs then
      ((Event.archiveSkipped idx :: (archiveContentGo archiver errs (idx + 1) rest s).1),
        (archiveContentGo archiver errs (idx + 1) rest s).2)
    else
      ((Event.archived idx (archiver s a).1 ::
          (archiveContentGo archiver errs (idx + 1) rest (archiver s a).2).1),
        (archiveContentGo archiver errs (idx + 1) rest (archiver s a).2).2)

/-- Python `EntryPoint`, phases after classification: encode-all, then archive-all
gated on the encode-failure set. -/
def entryPointTrace {S A : Type} (encoder archiver : S → A → InvokeResult × S)
    (albums : List A) (s : S) : List Event :=
  (encodeContentGo encoder 0 albums s).1 ++
    (archiveContentGo archiver (encodeContentGo encoder 0 albums s).2.1 0 albums
      (encodeContentGo encoder 0 albums s).2.2).1

end ProcessRippedCDs

namespace Legacy

open ProcessRippedCDs in
/-- One stage of the legacy `EntryPoint` run over every album in order,
recording each invocation; the legacy functors return nothing and no
failure set exists. -/
def runStageGo {S A : Type} (stage : S → A → InvokeResult × S)
    (mk : Nat → InvokeResult → Event) :
    Nat → List A → S → List Event × S
  | _, [], s => ([], s)
  | idx, a :: rest, s =>
    ((mk idx (stage s a).1 :: (runStageGo stage mk (idx + 1) rest (stage s a).2).1),
      (runStageGo stage mk (idx + 1) rest (stage s a).2).2)

open ProcessRippedCDs in
/-- The legacy `EntryPoint` phases after classification: archive **all**
albums first, then encode all albums; no gating between the stages. -/
def entryPointTrace {S A : Type} (archiver encoder : S → A → InvokeResult × S)
    (albums : List A) (s : S) : List Event :=
  (runStageGo archiver Event.archived 0 albums s).1 ++
    (runStageGo encoder Event.encoded 0 albums
      (runStageGo archiver Event.archived 0 albums s).2).1

end Legacy

namespace ProcessRippedCDs

/-! ## Theorems -/

/-- C4: for every line splitting into exactly 16 tab-separated fields, the
parser assigns input field `i` to positional attribute `i` of the record
exactly (round-trip, internal spaces included), parsing fields 2, 9, 12 and
13 as integers; if any of those four is not a valid integer the parser fails
with a `ParseError`, and every other field is taken verbatim. -/
theorem fromTabDelimitedLine_roundtrip (line : List Char) (items : List (List Char))
    (hitems : items = splitTabs (rstripChar '\t' (rstripChar '\n' line)))
    (h16 : items.length = 16) :
    (∀ n2 n9 n12 n13,
      pyInt (items.getD 2 []) = some n2 →
      pyInt (items.getD 9 []) = some n9 →
      pyInt (items.getD 12 []) = some n12 →
      pyInt (items.getD 13 []) = some n13 →
      fromTabDelimitedLine line =
        .ok ⟨items.getD 0 [], items.getD 1 [], n2, items.getD 3 [], items.getD 4 [],
             items.getD 5 [], items.getD 6 [], items.getD 7 [], items.getD 8 [], n9,
             items.getD 10 [], items.getD 11 [], n12, n13, items.getD 14 [],
             items.getD 15 []⟩) ∧
    ((pyInt (items.getD 2 []) = none ∨ pyInt (items.getD 9 []) = none ∨
      pyInt (items.getD 12 []) = none ∨ pyInt (items.getD 13 []) = none) →
      ∃ s, fromTabDelimitedLine line = .error (.invalidInt s)) := by
  subst hitems
  unfold fromTabDelimitedLine fromItems
  constructor
  · intro n2 n9 n12 n13 h2 h9 h12 h13
    rw [if_pos h16, h2, h9, h12, h13]
  · intro hbad
    rw [if_pos h16]
    rcases hc2 : pyInt ((splitTabs (rstripChar '\t' (rstripChar '\n' line))).getD 2 []) with _ | n2
    · exact ⟨_, rfl⟩
    rcases hc9 : pyInt ((splitTabs (rstripChar '\t' (rstripChar '\n' line))).getD 9 []) with _ | n9
    · exact ⟨_, rfl⟩
    rcases hc12 : pyInt ((splitTabs (rstripChar '\t' (rstripChar '\n' line))).getD 12 []) with _ | n12
    · exact ⟨_, rfl⟩
    rcases hc13 : pyInt ((splitTabs (rstripChar '\t' (rstripChar '\n' line))).getD 13 []) with _ | n13
    · exact ⟨_, rfl⟩
    rcases hbad with h | h | h | h
    · rw [hc2] at h; cases h
    · rw [hc9] at h; cases h
    · rw [hc12] at h; cases h
    · rw [hc13] at h; cases h

/-- Witness for C4: a concrete 16-field line, with internal spaces, parses
to exactly the positional record. -/
theorem fromTabDelimitedLine_roundtrip_witness :
    fromTabDelimitedLine
        ("My Song\tThe Artist\t3\t3:45\tComp J\tAlbum X\tArtist Y\tAC\tAI\t1999\tRock\tGood stuff\t12\t1\tDBT\tABC123\n".toList) =
      .ok ⟨"My Song".toList, "The Artist".toList, 3, "3:45".toList, "Comp J".toList,
           "Album X".toList, "Artist Y".toList, "AC".toList, "AI".toList, 1999,
           "Rock".toList, "Good stuff".toList, 12, 1, "DBT".toList, "ABC123".toList⟩ := by
  have h :=
    (fromTabDelimitedLine_roundtrip
        ("My Song\tThe Artist\t3\t3:45\tComp J\tAlbum X\tArtist Y\tAC\tAI\t1999\tRock\tGood stuff\t12\t1\tDBT\tABC123\n".toList)
        _ rfl (by decide)).1 3 1999 12 1 (by decide) (by decide) (by decide) (by decide)
  exact h.trans rfl

/-- C5: a line that, after stripping the trailing newline and trailing tabs
and splitting on tab, yields other than 16 fields always fails with the
arity `ParseError`; no record is constructed. -/
theorem fromTabDelimitedLine_wrong_arity (line : List Char)
    (h : (splitTabs (rstripChar '\t' (rstripChar '\n' line))).length ≠ 16) :
    fromTabDelimitedLine line =
      .error (.wrongFieldCount (splitTabs (rstripChar '\t' (rstripChar '\n' line))).length) := by
  unfold fromTabDelimitedLine fromItems
  rw [if_neg h]

/-- Witness for C5: a concrete 2-field line fails with the arity error. -/
theorem fromTabDelimitedLine_wrong_arity_witness :
    fromTabDelimitedLine ("a\tb\n".toList) = .error (.wrongFieldCount 2) := by
  have h := fromTabDelimitedLine_wrong_arity ("a\tb\n".toList) (by decide)
  exact h.trans rfl

/-! ### Serialization lemmas for the trailing-tab stripping behaviour -/

theorem splitTabs_ne_nil (l : List Char) : splitTabs l ≠ [] := by
  cases l with
  | nil => simp [splitTabs]
  | cons c rest =>
    unfold splitTabs
    cases h : splitTabs rest with
    | nil => simp
    | cons f fs =>
      by_cases hc : c = '\t' <;> simp [hc]

theorem splitTabs_of_no_tab (l : List Char) (h : ∀ c ∈ l, c ≠ '\t') :
    splitTabs l = [l] := by
  induction l with
  | nil => rfl
  | cons c rest ih =>
    have hc : c ≠ '\t' := h c (by simp)
    have hrest := ih (fun d hd => h d (by simp [hd]))
    unfold splitTabs
    rw [hrest]
    simp [hc]

theorem splitTabs_cons (c : Char) (rest : List Char) :
    splitTabs (c :: rest) =
      match splitTabs rest with
      | [] => [[]]
      | f :: fs => if c = '\t' then [] :: f :: fs else (c :: f) :: fs := rfl

theorem splitTabs_append_tab (f y : List Char) (hf : ∀ c ∈ f, c ≠ '\t') :
    splitTabs (f ++ '\t' :: y) = f :: splitTabs y := by
  induction f with
  | nil =>
    show splitTabs ('\t' :: y) = [] :: splitTabs y
    rw [splitTabs_cons]
    cases h : splitTabs y with
    | nil => exact absurd h (splitTabs_ne_nil y)
    | cons g gs => simp
  | cons c rest ih =>
    have hc : c ≠ '\t' := hf c (by simp)
    have hrest := ih (fun d hd => hf d (by simp [hd]))
    show splitTabs (c :: (rest ++ '\t' :: y)) = (c :: rest) :: splitTabs y
    rw [splitTabs_cons, hrest]
    simp [hc]

theorem splitTabs_joinTab (fs : List (List Char)) (hne : fs ≠ [])
    (hclean : ∀ f ∈ fs, ∀ c ∈ f, c ≠ '\t') :
    splitTabs (joinTab fs) = fs := by
  induction fs with
  | nil => exact absurd rfl hne
  | cons f rest ih =>
    cases rest with
    | nil =>
      show splitTabs (joinTab [f]) = [f]
      unfold joinTab
      exact splitTabs_of_no_tab f (hclean f (by simp))
    | cons g more =>
      show splitTabs (f ++ '\t' :: joinTab (g :: more)) = f :: g :: more
      rw [splitTabs_append_tab f _ (hclean f (by simp))]
      rw [ih (by simp) (fun f' hf' => hclean f' (by simp [hf']))]

theorem rstripChar_append_single (ch : Char) (l : List Char) :
    rstripChar ch (l ++ [ch]) = rstripChar ch l := by
  unfold rstripChar
  simp

theorem rstripChar_of_no_char (ch : Char) (l : List Char) (h : ∀ c ∈ l, c ≠ ch) :
    rstripChar ch l = l := by
  unfold rstripChar
  rw [List.dropWhile_eq_self_iff.mpr]
  · simp
  · intro hne
    simp only [decide_eq_true_eq]
    intro heq
    exact h _ (List.mem_reverse.mp (l.reverse.get_mem _ _)) heq

theorem rstripChar_of_last_ne (ch : Char) (l : List Char) (d : Char)
    (hlast : l.getLast? = some d) (hne : d ≠ ch) :
    rstripChar ch l = l := by
  unfold rstripChar
  cases hrev : l.reverse with
  | nil =>
    have : l = [] := by simpa using congrArg List.reverse hrev
    subst this
    simp at hlast
  | cons a t =>
    have ha : a = d := by
      have h1 : l.reverse.head? = some a := by rw [hrev]; rfl
      rw [List.head?_reverse] at h1
      rw [hlast] at h1
      exact (Option.some_inj.mp h1).symm
    subst ha
    rw [List.dropWhile_cons_of_neg (by simpa using hne)]
    exact (by simpa using congrArg List.reverse hrev : l = _).symm

theorem joinTab_append_single (fs : List (List Char)) (a : List Char) (hne : fs ≠ []) :
    joinTab (fs ++ [a]) = joinTab fs ++ '\t' :: a := by
  induction fs with
  | nil => exact absurd rfl hne
  | cons f rest ih =>
    cases rest with
    | nil => rfl
    | cons g more =>
      show joinTab (f :: ((g :: more) ++ [a])) = joinTab (f :: g :: more) ++ '\t' :: a
      have h1 : joinTab (f :: ((g :: more) ++ [a])) = f ++ '\t' :: joinTab ((g :: more) ++ [a]) := rfl
      rw [h1, ih (by simp)]
      show f ++ '\t' :: (joinTab (g :: more) ++ '\t' :: a) =
        (f ++ '\t' :: joinTab (g :: more)) ++ '\t' :: a
      simp

theorem mem_joinTab (fs : List (List Char)) (c : Char) (h : c ∈ joinTab fs) :
    c = '\t' ∨ ∃ f ∈ fs, c ∈ f := by
  induction fs with
  | nil => simp [joinTab] at h
  | cons f rest ih =>
    cases rest with
    | nil =>
      right
      exact ⟨f, by simp, h⟩
    | cons g more =>
      have h' : c ∈ f ++ '\t' :: joinTab (g :: more) := h
      rw [List.mem_append] at h'
      rcases h' with h' | h'
      · exact Or.inr ⟨f, by simp, h'⟩
      · rcases List.mem_cons.mp h' with h' | h'
        · exact Or.inl h'
        · rcases ih h' with h'' | ⟨f', hf', hc⟩
          · exact Or.inl h''
          · exact Or.inr ⟨f', by simp [hf'], hc⟩

theorem getLast?_append_right (l₁ l₂ : List Char) (h : l₂ ≠ []) :
    (l₁ ++ l₂).getLast? = l₂.getLast? := by
  rw [← List.head?_reverse, ← List.head?_reverse, List.reverse_append]
  cases hrev : l₂.reverse with
  | nil =>
    have : l₂ = [] := by simpa using congrArg List.reverse hrev
    exact absurd this h
  | cons a t => rfl

/-- After the trailing-tab strip, joining any nonempty list of tab-free
fields and re-splitting yields at most as many fields as were joined. -/
theorem splitTabs_rstrip_joinTab_le (fs : List (List Char)) (hne : fs ≠ [])
    (hclean : ∀ f ∈ fs, ∀ c ∈ f, c ≠ '\t') :
    (splitTabs (rstripChar '\t' (joinTab fs))).length ≤ fs.length := by
  induction fs using List.reverseRecOn with
  | nil => exact absurd rfl hne
  | append_singleton l a ih =>
    by_cases hae : a = []
    · subst hae
      by_cases hle : l = []
      · subst hle
        simp [joinTab, rstripChar, splitTabs]
      · rw [joinTab_append_single l [] hle]
        rw [rstripChar_append_single '\t' (joinTab l)]
        have hll := ih hle (fun f hf => hclean f (by simp [hf]))
        calc (splitTabs (rstripChar '\t' (joinTab l))).length ≤ l.length := hll
          _ ≤ (l ++ [([] : List Char)]).length := by simp
    · have hlast : (joinTab (l ++ [a])).getLast? = a.getLast? := by
        by_cases hle : l = []
        · subst hle
          simp [joinTab]
        · rw [joinTab_append_single l a hle]
          rw [getLast?_append_right _ _ (by simp)]
          exact getLast?_append_right ['\t'] a hae
      have hd : a.getLast? = some (a.getLast hae) := List.getLast?_eq_getLast a hae
      have hdt : a.getLast hae ≠ '\t' :=
        hclean a (by simp) _ (List.getLast_mem hae)
      rw [rstripChar_of_last_ne '\t' _ _ (hlast.trans hd) hdt]
      rw [splitTabs_joinTab _ (by simp) hclean]

/-- C10 (implicit): since `from_tab_delimited_line` strips all trailing tab
characters before splitting, any 16-field record whose final (`cd_db_id`)
field is empty — so the serialized line ends in a tab before the trailing
newline — re-splits to fewer than 16 fields and fails to parse; such a
record can never be round-tripped through its natural tab-delimited
serialization. -/
theorem trailing_empty_field_never_parses (fields : List (List Char))
    (h16 : fields.length = 16)
    (hclean : ∀ f ∈ fields, ∀ c ∈ f, c ≠ '\t' ∧ c ≠ '\n')
    (hlast : fields.getLast? = some []) :
    ∃ n, n < 16 ∧
      fromTabDelimitedLine (joinTab fields ++ ['\n']) = .error (.wrongFieldCount n) := by
  have hfne : fields ≠ [] := by
    intro h
    rw [h] at h16
    simp at h16
  have hnotab : ∀ f ∈ fields, ∀ c ∈ f, c ≠ '\t' := fun f hf c hc => (hclean f hf c hc).1
  have hnonl : ∀ c ∈ joinTab fields, c ≠ '\n' := by
    intro c hc
    rcases mem_joinTab fields c hc with h | ⟨f, hf, hcf⟩
    · rw [h]; decide
    · exact (hclean f hf c hcf).2
  have hstrip1 : rstripChar '\n' (joinTab fields ++ ['\n']) = joinTab fields := by
    rw [rstripChar_append_single, rstripChar_of_no_char _ _ hnonl]
  have hsplit : fields.dropLast ++ [fields.getLast hfne] = fields :=
    List.dropLast_append_getLast hfne
  have hlastv : fields.getLast hfne = [] := by
    have := List.getLast?_eq_getLast fields hfne
    rw [hlast] at this
    exact (Option.some_inj.mp this).symm
  have hdlne : fields.dropLast ≠ [] := by
    intro h
    have : fields.length = 1 := by
      rw [← hsplit, h]
      simp
    omega
  have hjoin : joinTab fields = joinTab fields.dropLast ++ '\t' :: [] := by
    conv_lhs => rw [← hsplit]
    rw [hlastv]
    exact joinTab_append_single _ _ hdlne
  have hstrip2 : rstripChar '\t' (joinTab fields) = rstripChar '\t' (joinTab fields.dropLast) := by
    rw [hjoin]
    exact rstripChar_append_single '\t' (joinTab fields.dropLast)
  have hlen : (splitTabs (rstripChar '\t' (joinTab fields.dropLast))).length ≤ 15 := by
    have h1 := splitTabs_rstrip_joinTab_le fields.dropLast hdlne
      (fun f hf => hnotab f (List.dropLast_subset fields hf))
    have h2 : fields.dropLast.length = 15 := by
      rw [List.length_dropLast, h16]
    omega
  refine ⟨(splitTabs (rstripChar '\t' (joinTab fields.dropLast))).length, by omega, ?_⟩
  unfold fromTabDelimitedLine
  rw [hstrip1, hstrip2]
  unfold fromItems
  rw [if_neg (by omega)]

/-- Witness for C10: a concrete 16-field record with empty final field fails
to re-parse from its serialization. -/
theorem trailing_empty_field_never_parses_witness :
    ∃ n, n < 16 ∧
      fromTabDelimitedLine
          (joinTab (List.replicate 15 ['a'] ++ [[]]) ++ ['\n']) =
        .error (.wrongFieldCount n) :=
  trailing_empty_field_never_parses (List.replicate 15 ['a'] ++ [[]])
    (by decide) (by decide) (by decide)

/-- C2: evaluation of the track-number extraction.  The primary
implementation maps `"3 - Track.wav"` to 3 and rejects `"Track.wav"`, as
claimed — but maps `"03.wav"` to track 0, not 3: the greedy `\d+` must give
a digit back to satisfy the mandatory `.+` of `\d+.+\.wav`.  The legacy
implementation's pattern maps `"03.wav"` to 3 (and, for contrast, the
primary pattern rejects a single-digit `"7.wav"` outright). -/
theorem wavTrackNum_eval :
    wavTrackNum ("3 - Track.wav".toList) = some 3 ∧
    wavTrackNum ("Track.wav".toList) = none ∧
    wavTrackNum ("03.wav".toList) = some 0 ∧
    wavTrackNum ("7.wav".toList) = none ∧
    Legacy.wavTrackNum ("03.wav".toList) = some 3 := by
  refine ⟨?_, ?_, ?_, ?_, ?_⟩ <;> decide

/-! ### Classifier scan-phase lemmas -/

theorem not_txt_of_wav (e : Entry) (h : isWavEntry e = true) : isTxtEntry e = false := by
  simp only [isWavEntry, decide_eq_true_eq] at h
  simp only [isTxtEntry]
  rw [h]
  decide

theorem not_log_of_wav (e : Entry) (h : isWavEntry e = true) : isLogEntry e = false := by
  simp only [isWavEntry, decide_eq_true_eq] at h
  simp only [isLogEntry]
  rw [h]
  decide

theorem not_pic_of_wav (e : Entry) (h : isWavEntry e = true) : isPicEntry e = false := by
  simp only [isWavEntry, decide_eq_true_eq] at h
  simp only [isPicEntry]
  rw [h]
  decide

theorem not_log_of_txt (e : Entry) (h : isTxtEntry e = true) : isLogEntry e = false := by
  simp only [isTxtEntry, decide_eq_true_eq] at h
  simp only [isLogEntry]
  rw [h]
  decide

theorem not_pic_of_txt (e : Entry) (h : isTxtEntry e = true) : isPicEntry e = false := by
  simp only [isTxtEntry, decide_eq_true_eq] at h
  simp only [isPicEntry]
  rw [h]
  decide

theorem not_pic_of_log (e : Entry) (h : isLogEntry e = true) : isPicEntry e = false := by
  simp only [isLogEntry, decide_eq_true_eq] at h
  simp only [isPicEntry]
  rw [h]
  decide

theorem optCount_le_one (o : Option Name) : optCount o ≤ 1 := by
  cases o <;> simp [optCount]

theorem scanEntries_cons (e : Entry) (rest : List Entry) (s : ScanState) :
    scanEntries (e :: rest) s =
      match classifyEntry s e with
      | .error r => .error r
      | .ok s' => scanEntries rest s' := rfl

theorem classifyEntry_notFile (s : ScanState) (e : Entry) (h : e.isFile = false) :
    classifyEntry s e = .error (.unexpectedSubdirectory e.name) := by
  simp [classifyEntry, h]

theorem classifyEntry_wav (s : ScanState) (e : Entry) (hf : e.isFile = true)
    (hw : isWavEntry e = true) :
    classifyEntry s e = .ok { s with wav_filenames := s.wav_filenames ++ [e.name] } := by
  simp [classifyEntry, hf, hw]

theorem classifyEntry_txt (s : ScanState) (e : Entry) (hf : e.isFile = true)
    (hw : isWavEntry e = false) (ht : isTxtEntry e = true) :
    classifyEntry s e =
      match s.metadata_filename with
      | some _ => .error .multipleMetadataFiles
      | none => .ok { s with metadata_filename := some e.name } := by
  simp [classifyEntry, hf, hw, ht]

theorem classifyEntry_log (s : ScanState) (e : Entry) (hf : e.isFile = true)
    (hw : isWavEntry e = false) (ht : isTxtEntry e = false) (hl : isLogEntry e = true) :
    classifyEntry s e =
      match s.log_filename with
      | some _ => .error .multipleLogFiles
      | none => .ok { s with log_filename := some e.name } := by
  simp [classifyEntry, hf, hw, ht, hl]

theorem classifyEntry_pic (s : ScanState) (e : Entry) (hf : e.isFile = true)
    (hw : isWavEntry e = false) (ht : isTxtEntry e = false) (hl : isLogEntry e = false)
    (hp : isPicEntry e = true) :
    classifyEntry s e =
      match s.album_pic with
      | some _ => .error .multipleAlbumPictures
      | none => .ok { s with album_pic := some e.name } := by
  simp [classifyEntry, hf, hw, ht, hl, hp]

theorem classifyEntry_other (s : ScanState) (e : Entry) (hf : e.isFile = true)
    (hw : isWavEntry e = false) (ht : isTxtEntry e = false) (hl : isLogEntry e = false)
    (hp : isPicEntry e = false) :
    classifyEntry s e = .error (.unexpectedFilename e.name) := by
  simp [classifyEntry, hf, hw, ht, hl, hp]

theorem scanEntries_ok_iff (l : List Entry) : ∀ s : ScanState,
    (∃ s', scanEntries l s = .ok s') ↔ scanOK l s := by
  induction l with
  | nil =>
    intro s
    constructor
    · intro _
      refine ⟨by simp, ?_, ?_, ?_⟩ <;>
        simpa using optCount_le_one _
    · intro _
      exact ⟨s, rfl⟩
  | cons e rest ih =>
    intro s
    by_cases hf : e.isFile = true
    · by_cases hw : isWavEntry e = true
      · rw [scanEntries_cons, classifyEntry_wav s e hf hw]
        show (∃ s', scanEntries rest { s with wav_filenames := s.wav_filenames ++ [e.name] } = .ok s') ↔ _
        rw [ih]
        unfold scanOK
        have ht := not_txt_of_wav e hw
        have hl := not_log_of_wav e hw
        have hp := not_pic_of_wav e hw
        simp [List.countP_cons, ht, hl, hp, hf, hw]
      · have hw' : isWavEntry e = false := by simpa using hw
        by_cases htx : isTxtEntry e = true
        · rw [scanEntries_cons, classifyEntry_txt s e hf hw' htx]
          cases hm : s.metadata_filename with
          | some m =>
            constructor
            · rintro ⟨s', h⟩
              simp at h
            · rintro ⟨_, h2, _⟩
              rw [hm] at h2
              rw [List.countP_cons] at h2
              simp [htx, optCount] at h2
          | none =>
            show (∃ s', scanEntries rest { s with metadata_filename := some e.name } = .ok s') ↔ _
            rw [ih]
            unfold scanOK
            have hl := not_log_of_txt e htx
            have hp := not_pic_of_txt e htx
            simp [List.countP_cons, htx, hl, hp, hf, hm, optCount, hw']
        · have htx' : isTxtEntry e = false := by simpa using htx
          by_cases hlg : isLogEntry e = true
          · rw [scanEntries_cons, classifyEntry_log s e hf hw' htx' hlg]
            cases hm : s.log_filename with
            | some m =>
              constructor
              · rintro ⟨s', h⟩
                simp at h
              · rintro ⟨_, _, h3, _⟩
                rw [hm] at h3
                rw [List.countP_cons] at h3
                simp [hlg, optCount] at h3
            | none =>
              show (∃ s', scanEntries rest { s with log_filename := some e.name } = .ok s') ↔ _
              rw [ih]
              unfold scanOK
              have hp := not_pic_of_log e hlg
              simp [List.countP_cons, hlg, hp, hf, hm, optCount, hw', htx']
          · have hlg' : isLogEntry e = false := by simpa using hlg
            by_cases hpc : isPicEntry e = true
            · rw [scanEntries_cons, classifyEntry_pic s e hf hw' htx' hlg' hpc]
              cases hm : s.album_pic with
              | some m =>
                constructor
                · rintro ⟨s', h⟩
                  simp at h
                · rintro ⟨_, _, _, h4⟩
                  rw [hm] at h4
                  rw [List.countP_cons] at h4
                  simp [hpc, optCount] at h4
              | none =>
                show (∃ s', scanEntries rest { s with album_pic := some e.name } = .ok s') ↔ _
                rw [ih]
                unfold scanOK
                simp [List.countP_cons, hpc, hf, hm, optCount, hw', htx', hlg']
            · have hpc' : isPicEntry e = false := by simpa using hpc
              rw [scanEntries_cons, classifyEntry_other s e hf hw' htx' hlg' hpc']
              constructor
              · rintro ⟨s', h⟩
                simp at h
              · rintro ⟨h1, _⟩
                have := (h1 e (by simp)).2
                simp [hw', htx', hlg', hpc'] at this
    · have hf' : e.isFile = false := by simpa using hf
      rw [scanEntries_cons, classifyEntry_notFile s e hf']
      constructor
      · rintro ⟨s', h⟩
        simp at h
      · rintro ⟨h1, _⟩
        exact absurd (h1 e (by simp)).1 (by simp [hf'])

theorem scanEntries_ok_val (l : List Entry) : ∀ s s' : ScanState,
    scanEntries l s = .ok s' →
    s'.wav_filenames =
        s.wav_filenames ++ (l.filter (fun e => e.isFile && isWavEntry e)).map Entry.name ∧
    s'.metadata_filename =
        (match s.metadata_filename with
          | some m => some m
          | none => (l.find? (fun e => e.isFile && isTxtEntry e)).map Entry.name) ∧
    s'.log_filename =
        (match s.log_filename with
          | some m => some m
          | none => (l.find? (fun e => e.isFile && isLogEntry e)).map Entry.name) ∧
    s'.album_pic =
        (match s.album_pic with
          | some m => some m
          | none => (l.find? (fun e => e.isFile && isPicEntry e)).map Entry.name) := by
  induction l with
  | nil =>
    intro s s' h
    have hs : s = s' := by
      simpa [scanEntries] using h
    subst hs
    refine ⟨by simp, ?_, ?_, ?_⟩
    · cases s.metadata_filename <;> simp
    · cases s.log_filename <;> simp
    · cases s.album_pic <;> simp
  | cons e rest ih =>
    intro s s' h
    by_cases hf : e.isFile = true
    · by_cases hw : isWavEntry e = true
      · rw [scanEntries_cons, classifyEntry_wav s e hf hw] at h
        have h' : scanEntries rest { s with wav_filenames := s.wav_filenames ++ [e.name] } = .ok s' := h
        obtain ⟨h1, h2, h3, h4⟩ := ih _ _ h'
        have hts := not_txt_of_wav e hw
        have hls := not_log_of_wav e hw
        have hps := not_pic_of_wav e hw
        refine ⟨?_, ?_, ?_, ?_⟩
        · rw [h1]
          simp [List.filter_cons, hf, hw]
        · rw [h2]
          rw [List.find?_cons_of_neg _ (by simp [hts])]
        · rw [h3]
          rw [List.find?_cons_of_neg _ (by simp [hls])]
        · rw [h4]
          rw [List.find?_cons_of_neg _ (by simp [hps])]
      · have hw' : isWavEntry e = false := by simpa using hw
        by_cases htx : isTxtEntry e = true
        · rw [scanEntries_cons, classifyEntry_txt s e hf hw' htx] at h
          cases hm : s.metadata_filename with
          | some m =>
            rw [hm] at h
            simp at h
          | none =>
            rw [hm] at h
            have h' : scanEntries rest { s with metadata_filename := some e.name } = .ok s' := h
            obtain ⟨h1, h2, h3, h4⟩ := ih _ _ h'
            have hls := not_log_of_txt e htx
            have hps := not_pic_of_txt e htx
            refine ⟨?_, ?_, ?_, ?_⟩
            · rw [h1]
              simp [List.filter_cons, hf, hw']
            · rw [h2]
              rw [List.find?_cons_of_pos _ (by simp [hf, htx])]
              simp
            · rw [h3]
              rw [List.find?_cons_of_neg _ (by simp [hls])]
            · rw [h4]
              rw [List.find?_cons_of_neg _ (by simp [hps])]
        · have htx' : isTxtEntry e = false := by simpa using htx
          by_cases hlg : isLogEntry e = true
          · rw [scanEntries_cons, classifyEntry_log s e hf hw' htx' hlg] at h
            cases hm : s.log_filename with
            | some m =>
              rw [hm] at h
              simp at h
            | none =>
              rw [hm] at h
              have h' : scanEntries rest { s with log_filename := some e.name } = .ok s' := h
              obtain ⟨h1, h2, h3, h4⟩ := ih _ _ h'
              have hps := not_pic_of_log e hlg
              refine ⟨?_, ?_, ?_, ?_⟩
              · rw [h1]
                simp [List.filter_cons, hf, hw']
              · rw [h2]
                rw [List.find?_cons_of_neg _ (by simp [htx'])]
              · rw [h3]
                rw [List.find?_cons_of_pos _ (by simp [hf, hlg])]
                simp
              · rw [h4]
                rw [List.find?_cons_of_neg _ (by simp [hps])]
          · have hlg' : isLogEntry e = false := by simpa using hlg
            by_cases hpc : isPicEntry e = true
            · rw [scanEntries_cons, classifyEntry_pic s e hf hw' htx' hlg' hpc] at h
              cases hm : s.album_pic with
              | some m =>
                rw [hm] at h
                simp at h
              | none =>
                rw [hm] at h
                have h' : scanEntries rest { s with album_pic := some e.name } = .ok s' := h
                obtain ⟨h1, h2, h3, h4⟩ := ih _ _ h'
                refine ⟨?_, ?_, ?_, ?_⟩
                · rw [h1]
                  simp [List.filter_cons, hf, hw']
                · rw [h2]
                  rw [List.find?_cons_of_neg _ (by simp [htx'])]
                · rw [h3]
                  rw [List.find?_cons_of_neg _ (by simp [hlg'])]
                · rw [h4]
                  rw [List.find?_cons_of_pos _ (by simp [hf, hpc])]
                  simp
            · have hpc' : isPicEntry e = false := by simpa using hpc
              rw [scanEntries_cons, classifyEntry_other s e hf hw' htx' hlg' hpc'] at h
              simp at h
    · have hf' : e.isFile = false := by simpa using hf
      rw [scanEntries_cons, classifyEntry_notFile s e hf'] at h
      simp at h

/-! ### Permutation-transfer helpers -/

theorem find_eq_filter_head {α : Type} (p : α → Bool) (l : List α) :
    l.find? p = (l.filter p).head? := by
  induction l with
  | nil => rfl
  | cons a rest ih =>
    by_cases h : p a = true
    · rw [List.find?_cons_of_pos _ h, List.filter_cons_of_pos h]
      rfl
    · have h' : p a = false := by simpa using h
      rw [List.find?_cons_of_neg _ (by simp [h']), List.filter_cons_of_neg (by simp [h']), ih]

theorem find_perm_of_countP_le_one {α : Type} (p : α → Bool) (l l' : List α)
    (hp : l.Perm l') (hc : l.countP p ≤ 1) : l.find? p = l'.find? p := by
  rw [find_eq_filter_head, find_eq_filter_head]
  have hpf : (l.filter p).Perm (l'.filter p) := hp.filter p
  rw [List.countP_eq_length_filter] at hc
  interval_cases h : (l.filter p).length
  · rw [List.length_eq_zero] at h
    rw [h] at hpf
    rw [h, (List.nil_perm.mp hpf)]
  · rw [List.length_eq_one] at h
    obtain ⟨a, ha⟩ := h
    rw [ha] at hpf
    rw [ha, (List.singleton_perm.mp hpf)]

theorem scanOK_perm (e₁ e₂ : List Entry) (hp : e₁.Perm e₂) (s : ScanState) :
    scanOK e₁ s ↔ scanOK e₂ s := by
  unfold scanOK
  rw [hp.countP_eq isTxtEntry, hp.countP_eq isLogEntry, hp.countP_eq isPicEntry]
  constructor
  · rintro ⟨h1, h⟩
    exact ⟨fun e he => h1 e (hp.mem_iff.mpr he), h⟩
  · rintro ⟨h1, h⟩
    exact ⟨fun e he => h1 e (hp.mem_iff.mp he), h⟩

theorem findTrack_eq_none_iff (k : Int) (l : List (Int × Path)) :
    findTrack k l = none ↔ k ∉ l.map Prod.fst := by
  induction l with
  | nil => simp [findTrack]
  | cons e rest ih =>
    obtain ⟨j, p⟩ := e
    unfold findTrack
    by_cases hj : j = k
    · subst hj
      simp
    · rw [if_neg hj, ih]
      simp [Ne.symm hj]

theorem findTrack_mem (k : Int) (l : List (Int × Path)) (p : Path)
    (h : findTrack k l = some p) : (k, p) ∈ l := by
  induction l with
  | nil => simp [findTrack] at h
  | cons e rest ih =>
    obtain ⟨j, q⟩ := e
    unfold findTrack at h
    by_cases hj : j = k
    · subst hj
      rw [if_pos rfl] at h
      simp [Option.some_inj.mp h]
    · rw [if_neg hj] at h
      exact List.mem_cons_of_mem _ (ih h)

theorem mem_findTrack (k : Int) (l : List (Int × Path)) (p : Path)
    (hnd : (l.map Prod.fst).Nodup) (hm : (k, p) ∈ l) : findTrack k l = some p := by
  induction l with
  | nil => simp at hm
  | cons e rest ih =>
    obtain ⟨j, q⟩ := e
    rw [List.map_cons, List.nodup_cons] at hnd
    rcases List.mem_cons.mp hm with h | h
    · have h1 : k = j := congrArg Prod.fst h
      have h2 : p = q := congrArg Prod.snd h
      unfold findTrack
      rw [if_pos h1.symm, ← h2]
    · have hj : j ≠ k := by
        intro hjk
        subst hjk
        exact hnd.1 (by simpa using ⟨p, h⟩)
      unfold findTrack
      rw [if_neg hj]
      exact ih hnd.2 h

theorem findTrack_perm (l l' : List (Int × Path)) (hp : l.Perm l')
    (hnd : (l.map Prod.fst).Nodup) (k : Int) : findTrack k l = findTrack k l' := by
  have hnd' : (l'.map Prod.fst).Nodup := ((hp.map Prod.fst).nodup_iff).mp hnd
  cases h : findTrack k l with
  | some p =>
    exact (mem_findTrack k l' p hnd' (hp.mem_iff.mp (findTrack_mem k l p h))).symm
  | none =>
    symm
    rw [findTrack_eq_none_iff] at h ⊢
    intro hmem
    exact h ((hp.map Prod.fst).mem_iff.mpr hmem)

/-! ### `buildWavLookup` characterization -/

theorem buildWavLookup_cons_none (dir : Path) (n : Name) (rest : List Name)
    (acc : List (Int × Path)) (h : wavTrackNum n = none) :
    buildWavLookup dir (n :: rest) acc = .error (.wavBadFormat n) := by
  unfold buildWavLookup
  simp only [h]

theorem buildWavLookup_cons_dup (dir : Path) (n : Name) (rest : List Name)
    (acc : List (Int × Path)) (tn : Int) (prev : Path) (h : wavTrackNum n = some tn)
    (hft : findTrack tn acc = some prev) :
    buildWavLookup dir (n :: rest) acc =
      .error (.duplicateTrack tn (prev.getLastD []) n) := by
  unfold buildWavLookup
  simp only [h, hft]

theorem buildWavLookup_cons_step (dir : Path) (n : Name) (rest : List Name)
    (acc : List (Int × Path)) (tn : Int) (h : wavTrackNum n = some tn)
    (hft : findTrack tn acc = none) :
    buildWavLookup dir (n :: rest) acc =
      buildWavLookup dir rest (acc ++ [(tn, dir ++ [n])]) := by
  conv_lhs => unfold buildWavLookup
  simp only [h, hft]

theorem buildWavLookup_ok_iff (dir : Path) (ws : List Name) : ∀ acc : List (Int × Path),
    (acc.map Prod.fst).Nodup →
    ((∃ r, buildWavLookup dir ws acc = .ok r) ↔
      ((∀ n ∈ ws, (wavTrackNum n).isSome = true) ∧
        (acc.map Prod.fst ++ ws.filterMap wavTrackNum).Nodup)) := by
  induction ws with
  | nil =>
    intro acc hacc
    constructor
    · intro _
      exact ⟨by simp, by simpa using hacc⟩
    · intro _
      exact ⟨acc, rfl⟩
  | cons n rest ih =>
    intro acc hacc
    cases hv : wavTrackNum n with
    | none =>
      rw [buildWavLookup_cons_none dir n rest acc hv]
      constructor
      · rintro ⟨r, h⟩
        simp at h
      · rintro ⟨h1, _⟩
        have := h1 n (by simp)
        rw [hv] at this
        simp at this
    | some tn =>
      cases hft : findTrack tn acc with
      | some prev =>
        rw [buildWavLookup_cons_dup dir n rest acc tn prev hv hft]
        constructor
        · rintro ⟨r, h⟩
          simp at h
        · rintro ⟨_, h2⟩
          have hmem : tn ∈ acc.map Prod.fst := by
            simpa using ⟨prev, findTrack_mem tn acc prev hft⟩
          rw [List.filterMap_cons_some hv] at h2
          rw [List.nodup_append] at h2
          exact absurd hmem (fun hm => h2.2.2 hm (by simp))
      | none =>
        rw [buildWavLookup_cons_step dir n rest acc tn hv hft]
        have hnotin : tn ∉ acc.map Prod.fst := (findTrack_eq_none_iff tn acc).mp hft
        have hacc' : ((acc ++ [(tn, dir ++ [n])]).map Prod.fst).Nodup := by
          rw [List.map_append, List.nodup_append]
          refine ⟨hacc, by simp, ?_⟩
          intro x hx hx2
          simp at hx2
          subst hx2
          exact hnotin hx
        rw [ih _ hacc']
        rw [List.filterMap_cons_some hv]
        rw [List.map_append]
        constructor
        · rintro ⟨h1, h2⟩
          refine ⟨?_, ?_⟩
          · intro n2 hn2
            rcases List.mem_cons.mp hn2 with h | h
            · subst h
              rw [hv]
              rfl
            · exact h1 n2 h
          · simpa [List.append_assoc] using h2
        · rintro ⟨h1, h2⟩
          refine ⟨fun n2 hn2 => h1 n2 (by simp [hn2]), ?_⟩
          simpa [List.append_assoc] using h2

theorem buildWavLookup_ok_val (dir : Path) (ws : List Name) : ∀ acc r,
    buildWavLookup dir ws acc = .ok r →
    r = acc ++ ws.filterMap (fun n => (wavTrackNum n).map (fun t => (t, dir ++ [n]))) := by
  induction ws with
  | nil =>
    intro acc r h
    have : acc = r := by simpa [buildWavLookup] using h
    simp [← this]
  | cons n rest ih =>
    intro acc r h
    cases hv : wavTrackNum n with
    | none =>
      rw [buildWavLookup_cons_none dir n rest acc hv] at h
      simp at h
    | some tn =>
      cases hft : findTrack tn acc with
      | some prev =>
        rw [buildWavLookup_cons_dup dir n rest acc tn prev hv hft] at h
        simp at h
      | none =>
        rw [buildWavLookup_cons_step dir n rest acc tn hv hft] at h
        rw [ih _ _ h]
        simp [List.filterMap_cons, hv, List.append_assoc]

theorem buildWavLookup_keys (dir : Path) (ws : List Name) :
    ((ws.filterMap (fun n => (wavTrackNum n).map (fun t => (t, dir ++ [n])))).map Prod.fst) =
      ws.filterMap wavTrackNum := by
  induction ws with
  | nil => rfl
  | cons n rest ih =>
    cases hv : wavTrackNum n with
    | none =>
      simp [List.filterMap_cons, hv, ih]
    | some tn =>
      simp [List.filterMap_cons, hv, ih]

/-! ### `fromDirectory` decomposition -/

theorem fromDirectory_scan_error (rl : Name → List (List Char)) (dir : Path)
    (entries : List Entry) (r : RejectReason)
    (hs : scanEntries entries ⟨[], none, none, none⟩ = .error r) :
    fromDirectory rl dir entries = .error r := by
  unfold fromDirectory
  simp only [hs]

theorem fromDirectory_scan_ok (rl : Name → List (List Char)) (dir : Path)
    (entries : List Entry) (s : ScanState)
    (hs : scanEntries entries ⟨[], none, none, none⟩ = .ok s) :
    fromDirectory rl dir entries = fromDirectoryPost rl dir s := by
  unfold fromDirectory
  simp only [hs]

theorem fromDirectoryPost_ok_elim (rl : Name → List (List Char)) (dir : Path)
    (s : ScanState) (a : Album) (h : fromDirectoryPost rl dir s = .ok a) :
    s.wav_filenames.isEmpty = false ∧
    ∃ m, s.metadata_filename = some m ∧
    ∃ lk, buildWavLookup dir s.wav_filenames [] = .ok lk ∧
    ∃ ts, parseTracks (rl m) 0 = .ok ts ∧
    a = { source_dir := dir
          tracks := ts
          album_pic := s.album_pic.map (fun n => dir ++ [n])
          metadata_filename := some (dir ++ [m])
          log_filename := s.log_filename.map (fun n => dir ++ [n])
          wav_lookup := lk } := by
  unfold fromDirectoryPost at h
  by_cases hw : s.wav_filenames.isEmpty
  · rw [if_pos hw] at h
    simp at h
  · rw [if_neg hw] at h
    cases hm : s.metadata_filename with
    | none =>
      rw [hm] at h
      simp at h
    | some m =>
      simp only [hm] at h
      cases hb : buildWavLookup dir s.wav_filenames [] with
      | error r =>
        rw [hb] at h
        simp at h
      | ok lk =>
        simp only [hb] at h
        cases hpt : parseTracks (rl m) 0 with
        | error r =>
          rw [hpt] at h
          simp at h
        | ok ts =>
          simp only [hpt] at h
          refine ⟨by simpa using hw, m, by simp [hm], lk, by simp [hb], ts, by simp [hpt], ?_⟩
          injection h with h'
          exact h'.symm

theorem fromDirectoryPost_ok_intro (rl : Name → List (List Char)) (dir : Path)
    (s : ScanState) (m : Name) (lk : List (Int × Path)) (ts : List TrackMetadata)
    (hw : s.wav_filenames.isEmpty = false) (hm : s.metadata_filename = some m)
    (hb : buildWavLookup dir s.wav_filenames [] = .ok lk)
    (hpt : parseTracks (rl m) 0 = .ok ts) :
    fromDirectoryPost rl dir s =
      .ok { source_dir := dir
            tracks := ts
            album_pic := s.album_pic.map (fun n => dir ++ [n])
            metadata_filename := some (dir ++ [m])
            log_filename := s.log_filename.map (fun n => dir ++ [n])
            wav_lookup := lk } := by
  unfold fromDirectoryPost
  simp [hw, hm, hb, hpt]

/-- The initial scan state. -/
def initScan : ScanState := ⟨[], none, none, none⟩

theorem scanEntries_init_val (l : List Entry) (s' : ScanState)
    (h : scanEntries l initScan = .ok s') :
    s'.wav_filenames = (l.filter (fun e => e.isFile && isWavEntry e)).map Entry.name ∧
    s'.metadata_filename = (l.find? (fun e => e.isFile && isTxtEntry e)).map Entry.name ∧
    s'.log_filename = (l.find? (fun e => e.isFile && isLogEntry e)).map Entry.name ∧
    s'.album_pic = (l.find? (fun e => e.isFile && isPicEntry e)).map Entry.name := by
  obtain ⟨h1, h2, h3, h4⟩ := scanEntries_ok_val l initScan s' h
  refine ⟨?_, ?_, ?_, ?_⟩
  · rw [h1]
    simp [initScan]
  · rw [h2]
    simp [initScan]
  · rw [h3]
    simp [initScan]
  · rw [h4]
    simp [initScan]

theorem scanOK_init_counts (l : List Entry) (h : scanOK l initScan) :
    l.countP isTxtEntry ≤ 1 ∧ l.countP isLogEntry ≤ 1 ∧ l.countP isPicEntry ≤ 1 := by
  obtain ⟨_, h2, h3, h4⟩ := h
  simp [initScan, optCount] at h2 h3 h4
  exact ⟨h2, h3, h4⟩

theorem countP_fileAnd_le {p : Entry → Bool} (l : List Entry) :
    l.countP (fun e => e.isFile && p e) ≤ l.countP p :=
  List.countP_mono_left (fun e _ he => by
    simp only [Bool.and_eq_true] at he
    exact he.2)

theorem fromDirectory_ok_of_perm (rl : Name → List (List Char)) (dir : Path)
    (e₁ e₂ : List Entry) (hp : e₁.Perm e₂) (a₁ : Album)
    (h : fromDirectory rl dir e₁ = .ok a₁) : ∃ a₂, fromDirectory rl dir e₂ = .ok a₂ := by
  have hscan1 : ∃ s, scanEntries e₁ initScan = .ok s := by
    cases hs : scanEntries e₁ initScan with
    | error r =>
      rw [fromDirectory_scan_error rl dir e₁ r hs] at h
      simp at h
    | ok s => exact ⟨s, rfl⟩
  obtain ⟨s₁, hs₁⟩ := hscan1
  have hOK1 : scanOK e₁ initScan := (scanEntries_ok_iff e₁ initScan).mp ⟨s₁, hs₁⟩
  have hOK2 : scanOK e₂ initScan := (scanOK_perm e₁ e₂ hp initScan).mp hOK1
  obtain ⟨s₂, hs₂⟩ := (scanEntries_ok_iff e₂ initScan).mpr hOK2
  obtain ⟨hv1w, hv1m, _, _⟩ := scanEntries_init_val e₁ s₁ hs₁
  obtain ⟨hv2w, hv2m, _, _⟩ := scanEntries_init_val e₂ s₂ hs₂
  rw [fromDirectory_scan_ok rl dir e₁ s₁ hs₁] at h
  obtain ⟨hne1, m, hm1, lk1, hb1, ts, hpt, ha⟩ := fromDirectoryPost_ok_elim rl dir s₁ a₁ h
  have hwperm : s₁.wav_filenames.Perm s₂.wav_filenames := by
    rw [hv1w, hv2w]
    exact (hp.filter _).map _
  have hm2 : s₂.metadata_filename = some m := by
    rw [hv2m]
    rw [hv1m] at hm1
    have hcnt : e₁.countP (fun e => e.isFile && isTxtEntry e) ≤ 1 :=
      le_trans (countP_fileAnd_le e₁) (scanOK_init_counts e₁ hOK1).1
    rw [← find_perm_of_countP_le_one _ e₁ e₂ hp hcnt]
    exact hm1
  have hne2 : s₂.wav_filenames.isEmpty = false := by
    have hlen := hwperm.length_eq
    cases h2 : s₂.wav_filenames with
    | nil =>
      rw [h2] at hlen
      simp at hlen
      rw [hlen] at hne1
      simp at hne1
    | cons x xs => rfl
  have hbuild1 := (buildWavLookup_ok_iff dir s₁.wav_filenames [] (by simp)).mp ⟨lk1, hb1⟩
  have hbuild2 : ∃ lk2, buildWavLookup dir s₂.wav_filenames [] = .ok lk2 := by
    rw [buildWavLookup_ok_iff dir s₂.wav_filenames [] (by simp)]
    obtain ⟨hall, hnd⟩ := hbuild1
    refine ⟨fun n hn => hall n (hwperm.mem_iff.mpr hn), ?_⟩
    have hnd' : (s₁.wav_filenames.filterMap wavTrackNum).Nodup := by simpa using hnd
    have := ((hwperm.filterMap wavTrackNum).nodup_iff).mp hnd'
    simpa using this
  obtain ⟨lk2, hb2⟩ := hbuild2
  rw [fromDirectory_scan_ok rl dir e₂ s₂ hs₂]
  exact ⟨_, fromDirectoryPost_ok_intro rl dir s₂ m lk2 ts hne2 hm2 hb2 hpt⟩

theorem fromDirectory_ok_parts (rl : Name → List (List Char)) (dir : Path)
    (entries : List Entry) (a : Album) (h : fromDirectory rl dir entries = .ok a) :
    ∃ s, scanEntries entries initScan = .ok s ∧
      ∃ m lk ts, s.metadata_filename = some m ∧
        buildWavLookup dir s.wav_filenames [] = .ok lk ∧
        parseTracks (rl m) 0 = .ok ts ∧
        a = { source_dir := dir
              tracks := ts
              album_pic := s.album_pic.map (fun n => dir ++ [n])
              metadata_filename := some (dir ++ [m])
              log_filename := s.log_filename.map (fun n => dir ++ [n])
              wav_lookup := lk } := by
  cases hs : scanEntries entries initScan with
  | error r =>
    rw [fromDirectory_scan_error rl dir entries r hs] at h
    simp at h
  | ok s =>
    rw [fromDirectory_scan_ok rl dir entries s hs] at h
    obtain ⟨_, m, hm, lk, hb, ts, hpt, ha⟩ := fromDirectoryPost_ok_elim rl dir s a h
    exact ⟨s, by simp [hs], m, lk, ts, hm, hb, hpt, ha⟩

/-- C6 (amended): classification outcome is order-independent — a listing
accepted in one order is accepted in every order, and the resulting Albums
agree on every field, with the wav-lookup dict equal as a mapping.  (The
specific rejection reason of a rejected listing may however depend on the
order; see the counterexample.) -/
theorem fromDirectory_perm_invariant (rl : Name → List (List Char)) (dir : Path)
    (e₁ e₂ : List Entry) (hp : e₁.Perm e₂) :
    ((∃ a, fromDirectory rl dir e₁ = .ok a) ↔ (∃ a, fromDirectory rl dir e₂ = .ok a)) ∧
    (∀ a₁ a₂, fromDirectory rl dir e₁ = .ok a₁ → fromDirectory rl dir e₂ = .ok a₂ →
      a₁.source_dir = a₂.source_dir ∧ a₁.tracks = a₂.tracks ∧
      a₁.album_pic = a₂.album_pic ∧ a₁.metadata_filename = a₂.metadata_filename ∧
      a₁.log_filename = a₂.log_filename ∧
      ∀ k, findTrack k a₁.wav_lookup = findTrack k a₂.wav_lookup) := by
  constructor
  · exact ⟨fun h => h.elim (fun a ha => fromDirectory_ok_of_perm rl dir e₁ e₂ hp a ha),
      fun h => h.elim (fun a ha => fromDirectory_ok_of_perm rl dir e₂ e₁ hp.symm a ha)⟩
  · intro a₁ a₂ h₁ h₂
    obtain ⟨s₁, hs₁, m₁, lk₁, ts₁, hm₁, hb₁, hpt₁, ha₁⟩ := fromDirectory_ok_parts rl dir e₁ a₁ h₁
    obtain ⟨s₂, hs₂, m₂, lk₂, ts₂, hm₂, hb₂, hpt₂, ha₂⟩ := fromDirectory_ok_parts rl dir e₂ a₂ h₂
    have hOK1 : scanOK e₁ initScan := (scanEntries_ok_iff e₁ initScan).mp ⟨s₁, hs₁⟩
    have hmEq : m₁ = m₂ := by
      have f1 := (scanEntries_init_val e₁ s₁ hs₁).2.1
      have f2 := (scanEntries_init_val e₂ s₂ hs₂).2.1
      have hcnt : e₁.countP (fun e => e.isFile && isTxtEntry e) ≤ 1 :=
        le_trans (countP_fileAnd_le e₁) (scanOK_init_counts e₁ hOK1).1
      have hsame : s₁.metadata_filename = s₂.metadata_filename := by
        rw [f1, f2, find_perm_of_countP_le_one _ e₁ e₂ hp hcnt]
      rw [hm₁, hm₂] at hsame
      exact Option.some_inj.mp hsame
    have hpicEq : s₁.album_pic = s₂.album_pic := by
      rw [(scanEntries_init_val e₁ s₁ hs₁).2.2.2, (scanEntries_init_val e₂ s₂ hs₂).2.2.2,
        find_perm_of_countP_le_one _ e₁ e₂ hp
          (le_trans (countP_fileAnd_le e₁) (scanOK_init_counts e₁ hOK1).2.2)]
    have hlogEq : s₁.log_filename = s₂.log_filename := by
      rw [(scanEntries_init_val e₁ s₁ hs₁).2.2.1, (scanEntries_init_val e₂ s₂ hs₂).2.2.1,
        find_perm_of_countP_le_one _ e₁ e₂ hp
          (le_trans (countP_fileAnd_le e₁) (scanOK_init_counts e₁ hOK1).2.1)]
    have hwperm : s₁.wav_filenames.Perm s₂.wav_filenames := by
      rw [(scanEntries_init_val e₁ s₁ hs₁).1, (scanEntries_init_val e₂ s₂ hs₂).1]
      exact (hp.filter _).map _
    have htsEq : ts₁ = ts₂ := by
      rw [hmEq] at hpt₁
      have := hpt₁.symm.trans hpt₂
      injection this
    have hlkval₁ := buildWavLookup_ok_val dir s₁.wav_filenames [] lk₁ hb₁
    have hlkval₂ := buildWavLookup_ok_val dir s₂.wav_filenames [] lk₂ hb₂
    have hlkperm : lk₁.Perm lk₂ := by
      rw [hlkval₁, hlkval₂]
      simp only [List.nil_append]
      exact hwperm.filterMap _
    have hkeys : (lk₁.map Prod.fst).Nodup := by
      rw [hlkval₁]
      simp only [List.nil_append]
      rw [buildWavLookup_keys]
      have hc := (buildWavLookup_ok_iff dir s₁.wav_filenames [] (by simp)).mp ⟨lk₁, hb₁⟩
      simpa using hc.2
    subst ha₁
    subst ha₂
    refine ⟨rfl, htsEq, ?_, ?_, ?_, ?_⟩
    · show s₁.album_pic.map _ = s₂.album_pic.map _
      rw [hpicEq]
    · show some (dir ++ [m₁]) = some (dir ++ [m₂])
      rw [hmEq]
    · show s₁.log_filename.map _ = s₂.log_filename.map _
      rw [hlogEq]
    · intro k
      exact findTrack_perm lk₁ lk₂ hlkperm hkeys k

/-- Counterexample for C6 as stated: permuting a rejected listing can change
the rejection reason.  A directory with a subdirectory `sub` and a stray
file `x.bin` is rejected as an unexpected subdirectory in one order and as
an unexpected filename in the other. -/
theorem fromDirectory_perm_counterexample :
    ([⟨"sub".toList, false⟩, ⟨"x.bin".toList, true⟩] : List Entry).Perm
        [⟨"x.bin".toList, true⟩, ⟨"sub".toList, false⟩] ∧
    fromDirectory (fun _ => []) ["rip2".toList]
        [⟨"sub".toList, false⟩, ⟨"x.bin".toList, true⟩] =
      .error (.unexpectedSubdirectory "sub".toList) ∧
    fromDirectory (fun _ => []) ["rip2".toList]
        [⟨"x.bin".toList, true⟩, ⟨"sub".toList, false⟩] =
      .error (.unexpectedFilename "x.bin".toList) ∧
    RejectReason.unexpectedSubdirectory "sub".toList ≠
      RejectReason.unexpectedFilename "x.bin".toList :=
  ⟨List.Perm.swap _ _ _, rfl, rfl, by decide⟩

/-- Witness for the amended C6: a concrete two-file listing and its swap are
both accepted. -/
theorem fromDirectory_perm_invariant_witness :
    ([⟨"01 - A.wav".toList, true⟩, ⟨"m2.txt".toList, true⟩] : List Entry).Perm
        [⟨"m2.txt".toList, true⟩, ⟨"01 - A.wav".toList, true⟩] ∧
    ((∃ a, fromDirectory (fun _ => []) ["d".toList]
        [⟨"01 - A.wav".toList, true⟩, ⟨"m2.txt".toList, true⟩] = .ok a) ↔
      (∃ a, fromDirectory (fun _ => []) ["d".toList]
        [⟨"m2.txt".toList, true⟩, ⟨"01 - A.wav".toList, true⟩] = .ok a)) :=
  ⟨List.Perm.swap _ _ _,
    (fromDirectory_perm_invariant (fun _ => []) ["d".toList] _ _ (List.Perm.swap _ _ _)).1⟩

theorem Encode_eq_skipped (enc : Encoder) (fs : FS) (album : Album) (outputDir : Path)
    (h : outputDir ∈ fs.dirs) :
    Encode enc fs album outputDir = ⟨.Skipped, none, fs, album.wav_lookup⟩ := by
  unfold Encode
  rw [if_pos h]

/-- C7: if `outputDir` already exists as a directory, `Encode` returns
Skipped and touches nothing: the filesystem is returned unchanged, no
diagnostic is produced, and the album's wav-lookup mapping is untouched. -/
theorem Encode_skipped_no_change (enc : Encoder) (fs : FS) (album : Album) (outputDir : Path)
    (h : outputDir ∈ fs.dirs) :
    Encode enc fs album outputDir = ⟨.Skipped, none, fs, album.wav_lookup⟩ :=
  Encode_eq_skipped enc fs album outputDir h

/-- Witness for C7 at a concrete filesystem and album. -/
theorem Encode_skipped_no_change_witness :
    (["flacS".toList, "Alb".toList] : Path) ∈
        (⟨[["flacS".toList, "Alb".toList]], [["f".toList]]⟩ : FS).dirs ∧
    Encode (fun _ _ _ => 0) ⟨[["flacS".toList, "Alb".toList]], [["f".toList]]⟩
        ⟨["s".toList], [], none, none, none, [(3, ["s".toList, "03a.wav".toList])]⟩
        ["flacS".toList, "Alb".toList] =
      ⟨.Skipped, none, ⟨[["flacS".toList, "Alb".toList]], [["f".toList]]⟩,
        [(3, ["s".toList, "03a.wav".toList])]⟩ :=
  ⟨by decide,
    Encode_skipped_no_change (fun _ _ _ => 0) _ _ _ (by decide)⟩

/-! ### Encode equation lemmas -/

theorem Encode_eq_failed (enc : Encoder) (fs : FS) (album : Album) (outputDir : Path)
    (err : EncodeError) (fs2 : FS) (lk : List (Int × Path))
    (hout : outputDir ∉ fs.dirs)
    (hl : encodeLoop enc (tempDirOf outputDir) album.tracks album.wav_lookup
        (prepFS fs outputDir) = .failed err fs2 lk) :
    Encode enc fs album outputDir = ⟨.Failure, some err, fs2, lk⟩ := by
  unfold Encode
  rw [if_neg hout]
  simp only [hl]

theorem Encode_eq_done_unprocessed (enc : Encoder) (fs : FS) (album : Album) (outputDir : Path)
    (fs2 : FS) (lk : List (Int × Path))
    (hout : outputDir ∉ fs.dirs)
    (hl : encodeLoop enc (tempDirOf outputDir) album.tracks album.wav_lookup
        (prepFS fs outputDir) = .done fs2 lk)
    (hne : lk.isEmpty = false) :
    Encode enc fs album outputDir =
      ⟨.Failure, some (.unprocessed (lk.map (fun e => lastName e.2))), fs2, lk⟩ := by
  unfold Encode
  rw [if_neg hout]
  simp only [hl]
  rw [if_neg (by simp [hne])]

theorem Encode_eq_done_success (enc : Encoder) (fs : FS) (album : Album) (outputDir : Path)
    (fs2 : FS) (lk : List (Int × Path))
    (hout : outputDir ∉ fs.dirs)
    (hl : encodeLoop enc (tempDirOf outputDir) album.tracks album.wav_lookup
        (prepFS fs outputDir) = .done fs2 lk)
    (hemp : lk.isEmpty = true) :
    Encode enc fs album outputDir =
      ⟨.Success, none,
        renameDirTree (copyPicFS fs2 (tempDirOf outputDir) album.album_pic)
          (tempDirOf outputDir) outputDir, lk⟩ := by
  unfold Encode
  rw [if_neg hout]
  simp only [hl]
  rw [if_pos hemp]

theorem encodeLoop_nil (enc : Encoder) (td : Path) (lk : List (Int × Path)) (fs : FS) :
    encodeLoop enc td [] lk fs = .done fs lk := rfl

theorem encodeLoop_cons_data (enc : Encoder) (td : Path) (t : TrackMetadata)
    (rest : List TrackMetadata) (lk : List (Int × Path)) (fs : FS)
    (ht : popTrack t.track_num lk = none) (hd : t.title ∈ dataTrackTitles) :
    encodeLoop enc td (t :: rest) lk fs = encodeLoop enc td rest lk fs := by
  conv_lhs => unfold encodeLoop
  simp only [ht]
  rw [if_pos hd]

theorem encodeLoop_cons_notfound (enc : Encoder) (td : Path) (t : TrackMetadata)
    (rest : List TrackMetadata) (lk : List (Int × Path)) (fs : FS)
    (ht : popTrack t.track_num lk = none) (hd : t.title ∉ dataTrackTitles) :
    encodeLoop enc td (t :: rest) lk fs = .failed (.trackNotFound t.track_num) fs lk := by
  unfold encodeLoop
  simp only [ht]
  rw [if_neg hd]

theorem encodeLoop_cons_encfail (enc : Encoder) (td : Path) (t : TrackMetadata)
    (rest : List TrackMetadata) (lk : List (Int × Path)) (fs : FS) (wav : Path)
    (lk2 : List (Int × Path)) (ht : popTrack t.track_num lk = some (wav, lk2))
    (hc : enc t wav (td ++ [tempTrackName t.track_num]) ≠ 0) :
    encodeLoop enc td (t :: rest) lk fs =
      .failed (.encoderExit (enc t wav (td ++ [tempTrackName t.track_num])))
        (unlinkFile fs (td ++ [tempTrackName t.track_num])) lk2 := by
  unfold encodeLoop
  simp only [ht]
  rw [if_pos hc]

theorem encodeLoop_cons_step (enc : Encoder) (td : Path) (t : TrackMetadata)
    (rest : List TrackMetadata) (lk : List (Int × Path)) (fs : FS) (wav : Path)
    (lk2 : List (Int × Path)) (ht : popTrack t.track_num lk = some (wav, lk2))
    (hc : ¬ enc t wav (td ++ [tempTrackName t.track_num]) ≠ 0) :
    encodeLoop enc td (t :: rest) lk fs =
      encodeLoop enc td rest lk2
        (renameFile
          (createFile (unlinkFile fs (td ++ [tempTrackName t.track_num]))
            (td ++ [tempTrackName t.track_num]))
          (td ++ [tempTrackName t.track_num])
          (td ++ [withSuffix ".flac".toList (lastName wav)])) := by
  conv_lhs => unfold encodeLoop
  simp only [ht]
  rw [if_neg hc]

/-! ### Frame lemmas: the track loop touches only files inside the temp dir -/

theorem encodeLoop_dirs (enc : Encoder) (td : Path) : ∀ (ts : List TrackMetadata)
    (lk : List (Int × Path)) (fs : FS),
    ((encodeLoop enc td ts lk fs).fsOf).dirs = fs.dirs := by
  intro ts
  induction ts with
  | nil =>
    intro lk fs
    rfl
  | cons t rest ih =>
    intro lk fs
    cases ht : popTrack t.track_num lk with
    | none =>
      by_cases hd : t.title ∈ dataTrackTitles
      · rw [encodeLoop_cons_data enc td t rest lk fs ht hd]
        exact ih lk fs
      · rw [encodeLoop_cons_notfound enc td t rest lk fs ht hd]
        rfl
    | some wl =>
      obtain ⟨wav, lk2⟩ := wl
      by_cases hc : enc t wav (td ++ [tempTrackName t.track_num]) ≠ 0
      · rw [encodeLoop_cons_encfail enc td t rest lk fs wav lk2 ht hc]
        rfl
      · rw [encodeLoop_cons_step enc td t rest lk fs wav lk2 ht hc]
        exact (ih lk2 _).trans rfl

theorem ne_of_length_ne_append_single (q td : Path) (x : Name)
    (h : q.length ≠ td.length + 1) : q ≠ td ++ [x] := by
  intro he
  apply h
  rw [he]
  simp

theorem unlinkFile_files_mem (fs : FS) (p q : Path) (h : q ≠ p) :
    q ∈ (unlinkFile fs p).files ↔ q ∈ fs.files := by
  simp [unlinkFile, List.mem_filter, h]

theorem createFile_files_mem (fs : FS) (p q : Path) (h : q ≠ p) :
    q ∈ (createFile fs p).files ↔ q ∈ fs.files := by
  simp [createFile, List.mem_filter, h]

theorem renameFile_files_mem (fs : FS) (src dst q : Path) (h1 : q ≠ src) (h2 : q ≠ dst) :
    q ∈ (renameFile fs src dst).files ↔ q ∈ fs.files := by
  simp [renameFile, List.mem_filter, h1, h2]

theorem encodeLoop_files (enc : Encoder) (td : Path) : ∀ (ts : List TrackMetadata)
    (lk : List (Int × Path)) (fs : FS) (q : Path), q.length ≠ td.length + 1 →
    (q ∈ ((encodeLoop enc td ts lk fs).fsOf).files ↔ q ∈ fs.files) := by
  intro ts
  induction ts with
  | nil =>
    intro lk fs q _
    exact Iff.rfl
  | cons t rest ih =>
    intro lk fs q hq
    have hne1 : q ≠ td ++ [tempTrackName t.track_num] :=
      ne_of_length_ne_append_single q td _ hq
    cases ht : popTrack t.track_num lk with
    | none =>
      by_cases hd : t.title ∈ dataTrackTitles
      · rw [encodeLoop_cons_data enc td t rest lk fs ht hd]
        exact ih lk fs q hq
      · rw [encodeLoop_cons_notfound enc td t rest lk fs ht hd]
        exact Iff.rfl
    | some wl =>
      obtain ⟨wav, lk2⟩ := wl
      by_cases hc : enc t wav (td ++ [tempTrackName t.track_num]) ≠ 0
      · rw [encodeLoop_cons_encfail enc td t rest lk fs wav lk2 ht hc]
        exact unlinkFile_files_mem fs _ q hne1
      · rw [encodeLoop_cons_step enc td t rest lk fs wav lk2 ht hc]
        rw [ih lk2 _ q hq]
        rw [renameFile_files_mem _ _ _ q hne1 (ne_of_length_ne_append_single q td _ hq)]
        rw [createFile_files_mem _ _ q hne1]
        exact unlinkFile_files_mem fs _ q hne1

/-! ### The temp directory is distinct from `outputDir` unless the name
already ends in `.tmp` -/

theorem withSuffixPath_length (s : Name) : ∀ p : Path, (withSuffixPath s p).length = p.length := by
  intro p
  induction p with
  | nil => rfl
  | cons n rest ih =>
    cases rest with
    | nil => rfl
    | cons m more =>
      have h : withSuffixPath s (n :: m :: more) = n :: withSuffixPath s (m :: more) := rfl
      rw [h]
      simp [ih]

theorem isUnder_eq_of_length : ∀ (a b : Path), isUnder a b = true → a.length = b.length → a = b := by
  intro a
  induction a with
  | nil =>
    intro b _ hl
    cases b with
    | nil => rfl
    | cons y ys => simp at hl
  | cons x xs ih =>
    intro b h hl
    cases b with
    | nil => simp [isUnder] at h
    | cons y ys =>
      simp only [isUnder, Bool.and_eq_true, beq_iff_eq] at h
      rw [h.1, ih ys h.2 (by simpa using hl)]

theorem prepFS_dirs_not (fs : FS) (outputDir : Path) (hout : outputDir ∉ fs.dirs)
    (hts : tempDirOf outputDir ≠ outputDir) :
    outputDir ∉ (prepFS fs outputDir).dirs := by
  intro hmem
  unfold prepFS mkdirParents at hmem
  rcases List.mem_append.mp hmem with h | h
  · simp only [ancestorsOf, List.mem_map, List.mem_range] at h
    obtain ⟨i, hi, heq⟩ := h
    have hlen : (tempDirOf outputDir).length = outputDir.length := withSuffixPath_length _ outputDir
    have htake : ((tempDirOf outputDir).take (i + 1)).length = i + 1 := by
      rw [List.length_take]
      exact Nat.min_eq_left (Nat.succ_le_of_lt hi)
    have hlen2 : outputDir.length = i + 1 := by
      rw [← heq]
      exact htake
    have hi1 : i + 1 = (tempDirOf outputDir).length := by omega
    apply hts
    calc tempDirOf outputDir
        = (tempDirOf outputDir).take (i + 1) := by
          rw [hi1]
          exact (List.take_length _).symm
      _ = outputDir := heq
  · by_cases htd : tempDirOf outputDir ∈ fs.dirs
    · rw [if_pos htd] at h
      exact hout (List.mem_of_mem_filter h)
    · rw [if_neg htd] at h
      exact hout h

theorem prepFS_files_out (fs : FS) (outputDir : Path)
    (hts : tempDirOf outputDir ≠ outputDir) :
    outputDir ∈ (prepFS fs outputDir).files ↔ outputDir ∈ fs.files := by
  unfold prepFS mkdirParents
  by_cases htd : tempDirOf outputDir ∈ fs.dirs
  · rw [if_pos htd]
    show outputDir ∈ (rmtree fs (tempDirOf outputDir)).files ↔ outputDir ∈ fs.files
    have hnu : isUnder (tempDirOf outputDir) outputDir = false := by
      cases hiu : isUnder (tempDirOf outputDir) outputDir with
      | true =>
        exact absurd
          (isUnder_eq_of_length _ _ hiu (withSuffixPath_length _ outputDir)) hts
      | false => rfl
    simp [rmtree, List.mem_filter, hnu]
  · rw [if_neg htd]

/-- C8 (amended): provided `outputDir` does not already end in the temp
suffix (so the temp directory is genuinely distinct from it), whenever
`Encode` returns Failure, `outputDir` does not exist as a directory
afterwards, and no file was created or removed at `outputDir`: the final
rename really is the single commit point. -/
theorem Encode_failure_no_partial (enc : Encoder) (fs : FS) (album : Album) (outputDir : Path)
    (hts : tempDirOf outputDir ≠ outputDir)
    (hres : (Encode enc fs album outputDir).result = .Failure) :
    outputDir ∉ (Encode enc fs album outputDir).fs.dirs ∧
    (outputDir ∈ (Encode enc fs album outputDir).fs.files ↔ outputDir ∈ fs.files) := by
  by_cases hout : outputDir ∈ fs.dirs
  · rw [Encode_eq_skipped enc fs album outputDir hout] at hres
    simp at hres
  · have hq : outputDir.length ≠ (tempDirOf outputDir).length + 1 := by
      unfold tempDirOf
      rw [withSuffixPath_length]
      omega
    have hpd := prepFS_dirs_not fs outputDir hout hts
    have hpf := prepFS_files_out fs outputDir hts
    have hld := encodeLoop_dirs enc (tempDirOf outputDir) album.tracks album.wav_lookup
      (prepFS fs outputDir)
    have hlf := encodeLoop_files enc (tempDirOf outputDir) album.tracks album.wav_lookup
      (prepFS fs outputDir) outputDir hq
    cases hl : encodeLoop enc (tempDirOf outputDir) album.tracks album.wav_lookup
        (prepFS fs outputDir) with
    | failed err fs2 lk =>
      rw [hl] at hld hlf
      simp only [LoopOut.fsOf] at hld hlf
      rw [Encode_eq_failed enc fs album outputDir err fs2 lk hout hl]
      exact ⟨fun hm => hpd (hld ▸ hm), hlf.trans hpf⟩
    | done fs2 lk =>
      by_cases hlk : lk.isEmpty
      · rw [Encode_eq_done_success enc fs album outputDir fs2 lk hout hl hlk] at hres
        simp at hres
      · rw [hl] at hld hlf
        simp only [LoopOut.fsOf] at hld hlf
        rw [Encode_eq_done_unprocessed enc fs album outputDir fs2 lk hout hl
          (by simpa using hlk)]
        exact ⟨fun hm => hpd (hld ▸ hm), hlf.trans hpf⟩

/-- Counterexample for C8 as stated: when the output directory's name
already ends in `.tmp`, `output_dir.with_suffix(".tmp")` equals
`output_dir` itself, so the temp directory *is* the output directory —
a Failure then leaves `outputDir` existing as a (partial) directory. -/
theorem Encode_tmp_collision_counterexample :
    tempDirOf (["flacC".toList, "AlbumC.tmp".toList] : Path) =
      ["flacC".toList, "AlbumC.tmp".toList] ∧
    (Encode (fun _ _ _ => 0) ⟨[["flacC".toList]], []⟩
        ⟨["srcC".toList],
          [⟨"T".toList, "A".toList, 5, "3:00".toList, "C".toList, "AT".toList, "AA".toList,
            "ACo".toList, "AI".toList, 1999, "G".toList, "Cm".toList, 10, 1, "DB".toList,
            "ID".toList⟩],
          none, some ["srcC".toList, "m.txt".toList], none, []⟩
        ["flacC".toList, "AlbumC.tmp".toList]).result = .Failure ∧
    (["flacC".toList, "AlbumC.tmp".toList] : Path) ∈
      (Encode (fun _ _ _ => 0) ⟨[["flacC".toList]], []⟩
        ⟨["srcC".toList],
          [⟨"T".toList, "A".toList, 5, "3:00".toList, "C".toList, "AT".toList, "AA".toList,
            "ACo".toList, "AI".toList, 1999, "G".toList, "Cm".toList, 10, 1, "DB".toList,
            "ID".toList⟩],
          none, some ["srcC".toList, "m.txt".toList], none, []⟩
        ["flacC".toList, "AlbumC.tmp".toList]).fs.dirs := by
  refine ⟨by decide, by decide, by decide⟩

/-- Witness for the amended C8: a concrete failing encode with an ordinary
output directory leaves no trace at `outputDir`. -/
theorem Encode_failure_no_partial_witness :
    (["flacC2".toList, "AlbumC2".toList] : Path) ∉
      (Encode (fun _ _ _ => 0) ⟨[["flacC2".toList]], []⟩
        ⟨["srcC2".toList],
          [⟨"T".toList, "A".toList, 5, "3:00".toList, "C".toList, "AT".toList, "AA".toList,
            "ACo".toList, "AI".toList, 1999, "G".toList, "Cm".toList, 10, 1, "DB".toList,
            "ID".toList⟩],
          none, some ["srcC2".toList, "m.txt".toList], none, []⟩
        ["flacC2".toList, "AlbumC2".toList]).fs.dirs ∧
    ((["flacC2".toList, "AlbumC2".toList] : Path) ∈
      (Encode (fun _ _ _ => 0) ⟨[["flacC2".toList]], []⟩
        ⟨["srcC2".toList],
          [⟨"T".toList, "A".toList, 5, "3:00".toList, "C".toList, "AT".toList, "AA".toList,
            "ACo".toList, "AI".toList, 1999, "G".toList, "Cm".toList, 10, 1, "DB".toList,
            "ID".toList⟩],
          none, some ["srcC2".toList, "m.txt".toList], none, []⟩
        ["flacC2".toList, "AlbumC2".toList]).fs.files ↔
      (["flacC2".toList, "AlbumC2".toList] : Path) ∈
        (⟨[["flacC2".toList]], []⟩ : FS).files) :=
  Encode_failure_no_partial (fun _ _ _ => 0) ⟨[["flacC2".toList]], []⟩
    ⟨["srcC2".toList],
      [⟨"T".toList, "A".toList, 5, "3:00".toList, "C".toList, "AT".toList, "AA".toList,
        "ACo".toList, "AI".toList, 1999, "G".toList, "Cm".toList, 10, 1, "DB".toList,
        "ID".toList⟩],
      none, some ["srcC2".toList, "m.txt".toList], none, []⟩
    ["flacC2".toList, "AlbumC2".toList] (by decide) (by decide)

/-- C9: if the track loop completes with a non-empty wav-lookup (raw-audio
files existed that no track record referenced), `Encode` returns Failure
and the diagnostic lists every leftover filename. -/
theorem Encode_unprocessed_reports_all (enc : Encoder) (fs : FS) (album : Album)
    (outputDir : Path) (fs₁ : FS) (lk₁ : List (Int × Path))
    (hout : outputDir ∉ fs.dirs)
    (hloop : encodeLoop enc (tempDirOf outputDir) album.tracks album.wav_lookup
        (prepFS fs outputDir) = .done fs₁ lk₁)
    (hne : lk₁ ≠ []) :
    Encode enc fs album outputDir =
      ⟨.Failure, some (.unprocessed (lk₁.map (fun e => lastName e.2))), fs₁, lk₁⟩ ∧
    ∀ e ∈ lk₁, lastName e.2 ∈ lk₁.map (fun e2 => lastName e2.2) := by
  refine ⟨Encode_eq_done_unprocessed enc fs album outputDir fs₁ lk₁ hout hloop ?_, ?_⟩
  · cases lk₁ with
    | nil => exact absurd rfl hne
    | cons a l => rfl
  · intro e he
    exact List.mem_map_of_mem _ he

/-- Witness for C9: an album with an extra wav for track 7 that no record
references; Encode fails and reports that file. -/
theorem Encode_unprocessed_reports_all_witness :
    Encode (fun _ _ _ => 0) ⟨[["flacW".toList]], []⟩
        ⟨["srcW".toList], [], none, some ["srcW".toList, "m.txt".toList], none,
          [(7, ["srcW".toList, "07 - Extra.wav".toList])]⟩
        ["flacW".toList, "AlbumW".toList] =
      ⟨.Failure, some (.unprocessed ["07 - Extra.wav".toList]),
        prepFS ⟨[["flacW".toList]], []⟩ ["flacW".toList, "AlbumW".toList],
        [(7, ["srcW".toList, "07 - Extra.wav".toList])]⟩ ∧
    "07 - Extra.wav".toList ∈ ["07 - Extra.wav".toList] := by
  have h := Encode_unprocessed_reports_all (fun _ _ _ => 0) ⟨[["flacW".toList]], []⟩
      ⟨["srcW".toList], [], none, some ["srcW".toList, "m.txt".toList], none,
        [(7, ["srcW".toList, "07 - Extra.wav".toList])]⟩
      ["flacW".toList, "AlbumW".toList] _ _ (by decide) rfl (by decide)
  exact ⟨h.1, h.2 (7, ["srcW".toList, "07 - Extra.wav".toList]) (by decide)⟩

/-! ### Orchestrator lemmas -/

theorem encodeContentGo_cons {S A : Type} (encoder : S → A → InvokeResult × S)
    (idx : Nat) (a : A) (rest : List A) (s : S) :
    encodeContentGo encoder idx (a :: rest) s =
      ((Event.encoded idx (encoder s a).1 ::
          (encodeContentGo encoder (idx + 1) rest (encoder s a).2).1),
        ((if (encoder s a).1 = .Failure then [idx] else []) ++
          (encodeContentGo encoder (idx + 1) rest (encoder s a).2).2.1),
        (encodeContentGo encoder (idx + 1) rest (encoder s a).2).2.2) := rfl

theorem encodeContentGo_mem {S A : Type} (encoder : S → A → InvokeResult × S) :
    ∀ (l : List A) (idx : Nat) (s : S) (ev : Event),
      ev ∈ (encodeContentGo encoder idx l s).1 →
      ∃ i r, ev = .encoded i r ∧ idx ≤ i ∧ i < idx + l.length := by
  intro l
  induction l with
  | nil =>
    intro idx s ev h
    simp [encodeContentGo] at h
  | cons a rest ih =>
    intro idx s ev h
    rw [encodeContentGo_cons] at h
    rcases List.mem_cons.mp h with h | h
    · exact ⟨idx, _, h, le_refl idx, by simp⟩
    · obtain ⟨i, r, he, hge, hlt⟩ := ih (idx + 1) _ ev h
      refine ⟨i, r, he, by omega, ?_⟩
      simp only [List.length_cons]
      omega

theorem encodeContentGo_errs_iff {S A : Type} (encoder : S → A → InvokeResult × S) :
    ∀ (l : List A) (idx : Nat) (s : S) (i : Nat),
      i ∈ (encodeContentGo encoder idx l s).2.1 ↔
      Event.encoded i .Failure ∈ (encodeContentGo encoder idx l s).1 := by
  intro l
  induction l with
  | nil =>
    intro idx s i
    simp [encodeContentGo]
  | cons a rest ih =>
    intro idx s i
    rw [encodeContentGo_cons]
    constructor
    · intro h
      rcases List.mem_append.mp h with h | h
      · by_cases hf : (encoder s a).1 = .Failure
        · rw [if_pos hf] at h
          simp at h
          subst h
          rw [hf]
          simp
        · rw [if_neg hf] at h
          simp at h
      · exact List.mem_cons_of_mem _ ((ih (idx + 1) _ i).mp h)
    · intro h
      rcases List.mem_cons.mp h with h | h
      · have h2 := h.symm
        simp only [Event.encoded.injEq] at h2
        rw [List.mem_append]
        left
        rw [if_pos h2.2]
        simp [h2.1]
      · exact List.mem_append.mpr (Or.inr ((ih (idx + 1) _ i).mpr h))

theorem archiveContentGo_cons_skip {S A : Type} (archiver : S → A → InvokeResult × S)
    (errs : List Nat) (idx : Nat) (a : A) (rest : List A) (s : S) (h : idx ∈ errs) :
    archiveContentGo archiver errs idx (a :: rest) s =
      ((Event.archiveSkipped idx :: (archiveContentGo archiver errs (idx + 1) rest s).1),
        (archiveContentGo archiver errs (idx + 1) rest s).2) := by
  conv_lhs => unfold archiveContentGo
  rw [if_pos h]

theorem archiveContentGo_cons_run {S A : Type} (archiver : S → A → InvokeResult × S)
    (errs : List Nat) (idx : Nat) (a : A) (rest : List A) (s : S) (h : idx ∉ errs) :
    archiveContentGo archiver errs idx (a :: rest) s =
      ((Event.archived idx (archiver s a).1 ::
          (archiveContentGo archiver errs (idx + 1) rest (archiver s a).2).1),
        (archiveContentGo archiver errs (idx + 1) rest (archiver s a).2).2) := by
  conv_lhs => unfold archiveContentGo
  rw [if_neg h]

theorem archiveContentGo_mem {S A : Type} (archiver : S → A → InvokeResult × S)
    (errs : List Nat) : ∀ (l : List A) (idx : Nat) (s : S) (ev : Event),
      ev ∈ (archiveContentGo archiver errs idx l s).1 →
      (∃ i, ev = .archiveSkipped i ∧ i ∈ errs) ∨ (∃ i r, ev = .archived i r ∧ i ∉ errs) := by
  intro l
  induction l with
  | nil =>
    intro idx s ev h
    simp [archiveContentGo] at h
  | cons a rest ih =>
    intro idx s ev h
    by_cases hm : idx ∈ errs
    · rw [archiveContentGo_cons_skip archiver errs idx a rest s hm] at h
      rcases List.mem_cons.mp h with h | h
      · exact Or.inl ⟨idx, h, hm⟩
      · exact ih (idx + 1) _ ev h
    · rw [archiveContentGo_cons_run archiver errs idx a rest s hm] at h
      rcases List.mem_cons.mp h with h | h
      · exact Or.inr ⟨idx, _, h, hm⟩
      · exact ih (idx + 1) _ ev h

theorem archiveContentGo_skip_iff {S A : Type} (archiver : S → A → InvokeResult × S)
    (errs : List Nat) : ∀ (l : List A) (idx : Nat) (s : S) (i : Nat),
      Event.archiveSkipped i ∈ (archiveContentGo archiver errs idx l s).1 ↔
      (i ∈ errs ∧ idx ≤ i ∧ i < idx + l.length) := by
  intro l
  induction l with
  | nil =>
    intro idx s i
    simp [archiveContentGo]
  | cons a rest ih =>
    intro idx s i
    by_cases hm : idx ∈ errs
    · rw [archiveContentGo_cons_skip archiver errs idx a rest s hm]
      simp only [List.mem_cons, Event.archiveSkipped.injEq, ih (idx + 1), List.length_cons]
      constructor
      · rintro (h | ⟨h1, h2, h3⟩)
        · subst h
          exact ⟨hm, le_refl _, by omega⟩
        · exact ⟨h1, by omega, by omega⟩
      · rintro ⟨h1, h2, h3⟩
        by_cases hi : i = idx
        · exact Or.inl hi
        · exact Or.inr ⟨h1, by omega, by omega⟩
    · rw [archiveContentGo_cons_run archiver errs idx a rest s hm]
      simp only [List.mem_cons, ih (idx + 1), List.length_cons]
      constructor
      · rintro (h | ⟨h1, h2, h3⟩)
        · simp at h
        · exact ⟨h1, by omega, by omega⟩
      · rintro ⟨h1, h2, h3⟩
        by_cases hi : i = idx
        · subst hi
          exact absurd h1 hm
        · exact Or.inr ⟨h1, by omega, by omega⟩

theorem archiveContentGo_archived_exists {S A : Type} (archiver : S → A → InvokeResult × S)
    (errs : List Nat) : ∀ (l : List A) (idx : Nat) (s : S) (i : Nat),
      idx ≤ i → i < idx + l.length → i ∉ errs →
      ∃ r, Event.archived i r ∈ (archiveContentGo archiver errs idx l s).1 := by
  intro l
  induction l with
  | nil =>
    intro idx s i h1 h2 _
    simp at h2
    omega
  | cons a rest ih =>
    intro idx s i h1 h2 h3
    by_cases hi : i = idx
    · subst hi
      rw [archiveContentGo_cons_run archiver errs i a rest s h3]
      exact ⟨(archiver s a).1, by simp⟩
    · have h1' : idx + 1 ≤ i := by omega
      have h2' : i < idx + 1 + rest.length := by
        simp only [List.length_cons] at h2
        omega
      by_cases hm : idx ∈ errs
      · rw [archiveContentGo_cons_skip archiver errs idx a rest s hm]
        obtain ⟨r, hr⟩ := ih (idx + 1) s i h1' h2' h3
        exact ⟨r, List.mem_cons_of_mem _ hr⟩
      · rw [archiveContentGo_cons_run archiver errs idx a rest s hm]
        obtain ⟨r, hr⟩ := ih (idx + 1) (archiver s a).2 i h1' h2' h3
        exact ⟨r, List.mem_cons_of_mem _ hr⟩

/-- C1 (amended, primary implementation): the orchestrator's trace is the
encode phase followed by the archive phase — every encode event precedes
every archive-phase event — and within the archive phase an album index is
skipped if and only if its encode result was Failure; an album is archived
(i.e. the Archive Stage is invoked for it) exactly when its encode result
was not Failure.  (The legacy near-duplicate violates this; see the
counterexample.) -/
theorem entryPointTrace_phases {S A : Type} (encoder archiver : S → A → InvokeResult × S)
    (albums : List A) (s : S) :
    ∃ encEvs arcEvs,
      entryPointTrace encoder archiver albums s = encEvs ++ arcEvs ∧
      (∀ ev ∈ encEvs, ∃ i r, ev = Event.encoded i r) ∧
      (∀ ev ∈ arcEvs, (∃ i, ev = Event.archiveSkipped i) ∨ ∃ i r, ev = Event.archived i r) ∧
      (∀ i, Event.archiveSkipped i ∈ arcEvs ↔ Event.encoded i InvokeResult.Failure ∈ encEvs) ∧
      (∀ i r, Event.archived i r ∈ arcEvs → Event.encoded i InvokeResult.Failure ∉ encEvs) ∧
      (∀ i, i < albums.length → Event.encoded i InvokeResult.Failure ∉ encEvs →
        ∃ r, Event.archived i r ∈ arcEvs) := by
  refine ⟨(encodeContentGo encoder 0 albums s).1,
    (archiveContentGo archiver (encodeContentGo encoder 0 albums s).2.1 0 albums
      (encodeContentGo encoder 0 albums s).2.2).1, rfl, ?_, ?_, ?_, ?_, ?_⟩
  · intro ev h
    obtain ⟨i, r, he, _, _⟩ := encodeContentGo_mem encoder albums 0 s ev h
    exact ⟨i, r, he⟩
  · intro ev h
    rcases archiveContentGo_mem archiver _ albums 0 _ ev h with ⟨i, he, _⟩ | ⟨i, r, he, _⟩
    · exact Or.inl ⟨i, he⟩
    · exact Or.inr ⟨i, r, he⟩
  · intro i
    constructor
    · intro h
      have h2 := (archiveContentGo_skip_iff archiver _ albums 0 _ i).mp h
      exact (encodeContentGo_errs_iff encoder albums 0 s i).mp h2.1
    · intro h
      have herrs := (encodeContentGo_errs_iff encoder albums 0 s i).mpr h
      obtain ⟨i2, r2, he, hge, hlt⟩ := encodeContentGo_mem encoder albums 0 s _ h
      have he2 : i = i2 := by
        simp only [Event.encoded.injEq] at he
        exact he.1
      exact (archiveContentGo_skip_iff archiver _ albums 0 _ i).mpr
        ⟨herrs, by omega, by omega⟩
  · intro i r h
    rcases archiveContentGo_mem archiver _ albums 0 _ _ h with ⟨i2, he, _⟩ | ⟨i2, r2, he, hi2⟩
    · simp at he
    · have he2 : i = i2 := by
        simp only [Event.archived.injEq] at he
        exact he.1
      intro hmem
      exact hi2 (he2 ▸ (encodeContentGo_errs_iff encoder albums 0 s i).mpr hmem)
  · intro i hlen hnot
    have hni : i ∉ (encodeContentGo encoder 0 albums s).2.1 :=
      fun hmem => hnot ((encodeContentGo_errs_iff encoder albums 0 s i).mp hmem)
    exact archiveContentGo_archived_exists archiver _ albums 0 _ i (Nat.zero_le i)
      (by omega) hni

/-- Witness for C1 (amended): the property instantiated at a concrete run
with one album whose encode fails. -/
theorem entryPointTrace_phases_witness :
    ∃ encEvs arcEvs,
      entryPointTrace (fun (s : Unit) (_ : Unit) => (InvokeResult.Failure, s))
          (fun s _ => (InvokeResult.Success, s)) [()] () = encEvs ++ arcEvs ∧
      (∀ ev ∈ encEvs, ∃ i r, ev = Event.encoded i r) ∧
      (∀ ev ∈ arcEvs, (∃ i, ev = Event.archiveSkipped i) ∨ ∃ i r, ev = Event.archived i r) ∧
      (∀ i, Event.archiveSkipped i ∈ arcEvs ↔ Event.encoded i InvokeResult.Failure ∈ encEvs) ∧
      (∀ i r, Event.archived i r ∈ arcEvs → Event.encoded i InvokeResult.Failure ∉ encEvs) ∧
      (∀ i, i < [()].length → Event.encoded i InvokeResult.Failure ∉ encEvs →
        ∃ r, Event.archived i r ∈ arcEvs) :=
  entryPointTrace_phases (fun s _ => (InvokeResult.Failure, s))
    (fun s _ => (InvokeResult.Success, s)) [()] ()

/-- Counterexample for C1 as stated: the legacy implementation's
orchestrator archives every album **before** any encode runs and has no
skip set — here the single album is archived although its encode result is
Failure, and the archive event precedes the encode event. -/
theorem legacy_archive_before_encode_counterexample :
    Legacy.entryPointTrace (fun (s : Unit) (_ : Unit) => (InvokeResult.Success, s))
        (fun s _ => (InvokeResult.Failure, s)) [()] () =
      [Event.archived 0 .Success, Event.encoded 0 .Failure] ∧
    Event.archived 0 InvokeResult.Success ∈
      Legacy.entryPointTrace (fun (s : Unit) (_ : Unit) => (InvokeResult.Success, s))
        (fun s _ => (InvokeResult.Failure, s)) [()] () ∧
    Event.encoded 0 InvokeResult.Failure ∈
      Legacy.entryPointTrace (fun (s : Unit) (_ : Unit) => (InvokeResult.Success, s))
        (fun s _ => (InvokeResult.Failure, s)) [()] () :=
  ⟨rfl, by decide, by decide⟩

/-- C3: evaluation showing the Classifier does construct an Album with zero
`TrackRecord`s.  A directory holding one wav file and a metadata file whose
`readlines()` yields zero lines is accepted, producing `tracks = []` — on
which the display name (`self.tracks[0]...`) is undefined. -/
theorem fromDirectory_zero_track_album :
    ∃ a, fromDirectory (fun _ => []) ["rip".toList]
        [⟨"01 - Track.wav".toList, true⟩, ⟨"album.txt".toList, true⟩] = .ok a ∧
      a.tracks = [] :=
  ⟨_, rfl, rfl⟩

end ProcessRippedCDs
